import Mathlib

/-!
Shallow embedding of the `block-iter` repository (Bitcoin block stream
sources) and proofs about its specification claims.

Source files embedded:
- `src/libs/main/src/source/read_detect.rs` (rolling magic scanner, `detect`)
- `src/libs/main/src/source/reorder.rs` (out-of-order reorderer)
- `src/libs/rpc/src/fetcher.rs` (concurrent fetcher: reorg tracking, ordering)
- `src/libs/rpc/src/lib.rs` (`RpcInfo::from_url` auth selection)

Block hashes are modelled as natural numbers (32-byte opaque identifiers
compared by value); u32 values are naturals kept below `2 ^ 32` by the
operations themselves.
-/

namespace BlockIter

/-! ## Rolling u32 window (`RollingU32` in `read_detect.rs`)

Rust:
```
fn push(&mut self, byte: u8) {
    self.0 >>= 8;
    self.0 |= (byte as u32) << 24;
}
```
-/

/-- One `push` of the rolling u32 window: shift the window right one byte and
place the new byte in the top byte. Mirrors `RollingU32::push`. -/
def rollPush (w b : ℕ) : ℕ := (w >>> 8) ||| (b <<< 24)

/-! ## RPC auth selection (`RpcInfo::from_url` in `rpc/src/lib.rs`)

Rust:
```
let auth = match (url.username() == "", url.password()) {
    (false, Some(p)) => bitcoincore_rpc::Auth::UserPass(...),
    (true, None) => bitcoincore_rpc::Auth::None,
    _ => bail!("Incorrect node auth parameters"),
};
```
-/

/-- The auth modes `RpcInfo::from_url` can produce. -/
inductive Auth where
  | noAuth : Auth
  | userPass (user pass : String) : Auth
deriving DecidableEq

/-- Auth selection from the parsed URL's username and optional password,
mirroring the `match` in `RpcInfo::from_url`. `none` is the configuration
error (`bail!`). -/
def fromUrlAuth (user : String) (pass : Option String) : Option Auth :=
  match user == "", pass with
  | false, some p => some (.userPass user p)
  | true, none => some .noAuth
  | false, none => none
  | true, some _ => none

/-! ## Worker error back-off (`Worker::run` in `rpc/src/fetcher.rs`)

Rust (the error arm of the retry loop):
```
let ahead_minimum = height - self.get_min_height_in_progress()...;
std::thread::sleep(Duration::from_millis(
    (1 + R::RECOMMENDED_ERROR_RETRY_DELAY_MS) * u64::from(ahead_minimum),
));
```
Note the parenthesisation: the code computes `(1 + delay) * (h - min)`,
not `delay * (1 + (h - min))`.
-/

/-- Milliseconds slept by a worker after an RPC error, as computed by the
code: `(1 + delay) * (height - minInProgress)` (u32 saturating-style
subtraction modelled by truncated `Nat` subtraction). -/
def workerErrorSleepMs (delay height minInProgress : ℕ) : ℕ :=
  (1 + delay) * (height - minInProgress)

/-! ## Block detection in a raw file (`detect` in `read_detect.rs`)

The scan reads one byte at a time into the rolling window; on a magic hit
it reads a 4-byte little-endian declared size (`u32::consensus_decode(...)?`
— note the `?`: EOF inside the size field is a returned error), records
`start`, attempts to decode one block, and either records the block
(asserting `size == end - start`) or logs and continues scanning from
wherever the failed decode left the reader.

The consensus block decoder (external collaborator) is a parameter: given
the remaining bytes it returns `(some (hash, prev), consumed)` on success
or `(none, consumed)` on failure, where `consumed` is how many bytes it
took off the reader in either case.
-/

/-- A block record located on disk: byte range plus header hash and
prev-hash. Mirrors `DetectedBlock` (`end` is spelled `stop`). -/
structure DetectedBlock where
  start : ℕ
  stop : ℕ
  hash : ℕ
  prev : ℕ
deriving DecidableEq

/-- The external consensus decoder interface: remaining bytes in, optional
`(hash, prev)` plus consumed byte count out. -/
abbrev Decoder := List ℕ → Option (ℕ × ℕ) × ℕ

/-- How a `detect` scan can fail: a propagated read error (the `?` on the
size read) or the `assert_eq!(size, end - start)` failing. -/
inductive DErr where
  | ioError : DErr
  | assertFail : DErr
deriving DecidableEq

/-- Result of a `detect` scan (`Result<Vec<DetectedBlock>>`, with the
assert-panic also made visible as an error outcome). -/
inductive DResult where
  | ok (blocks : List DetectedBlock) : DResult
  | error (e : DErr) : DResult
deriving DecidableEq

/-- Little-endian u32 from four bytes, as `u32::consensus_decode` reads the
declared block size. -/
def leU32 (b0 b1 b2 b3 : ℕ) : ℕ := b0 + 2 ^ 8 * b1 + 2 ^ 16 * b2 + 2 ^ 24 * b3

/-- The main scan loop of `detect`. `fuel` only bounds the number of loop
iterations; since every iteration consumes at least one byte, starting it
at `bytes.length` makes the fuel-exhausted branch unreachable. `pos` is the
reader's stream position, `rolling` the current window, `acc` the blocks
detected so far (reversed). -/
def detectLoop (decode : Decoder) (magic : ℕ) :
    (fuel : ℕ) → (rolling : ℕ) → (bytes : List ℕ) → (pos : ℕ) →
    (acc : List DetectedBlock) → DResult
  | _, _, [], _, acc => .ok acc.reverse
  | 0, _, _ :: _, _, acc => .ok acc.reverse
  | fuel + 1, rolling, b :: rest, pos, acc =>
    if rollPush rolling b = magic then
      match rest with
      | s0 :: s1 :: s2 :: s3 :: rest4 =>
        let size := leU32 s0 s1 s2 s3
        let start := pos + 5
        match decode rest4 with
        | (some (hsh, prv), consumed) =>
          if size = consumed then
            detectLoop decode magic fuel (rollPush rolling b) (rest4.drop consumed)
              (start + consumed)
              ({ start := start, stop := start + consumed, hash := hsh, prev := prv } :: acc)
          else .error .assertFail
        | (none, consumed) =>
          detectLoop decode magic fuel (rollPush rolling b) (rest4.drop consumed)
            (start + consumed) acc
      | _ => .error .ioError
    else detectLoop decode magic fuel (rollPush rolling b) rest (pos + 1) acc

/-- `detect(reader, magic)`: scan a whole file's bytes from a fresh window. -/
def detect (decode : Decoder) (magic : ℕ) (bytes : List ℕ) :
    DResult :=
  detectLoop decode magic bytes.length 0 bytes 0 []

/-! ## The RPC fetcher's ordering and reorg loop (`Fetcher` in `fetcher.rs`)

The coordinator state is `cur_height`, the prev-hash window
(`prev_hashes : BTreeMap<BlockHeight, BlockHash>`) and the out-of-order
buffer (`out_of_order_items : HashMap<BlockHeight, _>`). Maps are embedded
as `AList`s over ℕ keys; the BTreeMap's first/last key become `minKey` /
`maxKey`.

`Fetcher::next` is turned into a step machine driven by the sequence of
items received from the worker channel: each received item is parked,
accepted (emitted, possibly followed by draining the buffer), rejected as
a reorg, or hits one of the code's `panic!`/`assert!` aborts. This yields
an event trace that the ordering claims quantify over.
-/

/-- An item from the worker channel: `WithHeightAndId` plus the data's
`prev_block_hash()`. -/
structure RItem where
  height : ℕ
  id : ℕ
  prev : ℕ
deriving DecidableEq

/-- The coordinator's mutable state in `Fetcher`. -/
structure FetchSt where
  cur : ℕ
  ph : AList (fun _ : ℕ => ℕ)
  buf : AList (fun _ : ℕ => RItem)

/-- Smallest key of a map (`BTreeMap::iter().next()`). -/
def minKey (m : AList (fun _ : ℕ => ℕ)) : Option ℕ :=
  m.keys.foldr (fun k acc => match acc with | none => some k | some j => some (min k j)) none

/-- Largest key of a map (`BTreeMap::iter().next_back()`). -/
def maxKey (m : AList (fun _ : ℕ => ℕ)) : Option ℕ :=
  m.keys.foldr (fun k acc => match acc with | none => some k | some j => some (max k j)) none

/-- `let window_size = 1000;` in `Fetcher::track_reorgs`. -/
def windowSize : ℕ := 1000

/-- Outcome of `Fetcher::track_reorgs`: `false` (accept), `true` (reorg),
or one of its aborts (deep reorg beyond the window, missing prev-hash gap,
or the `expect("At least one element")` on an empty window). -/
inductive TrackResult where
  | accept : TrackResult
  | reorg : TrackResult
  | panicDeep : TrackResult
  | panicGap : TrackResult
  | panicEmpty : TrackResult
deriving DecidableEq

/-- `Fetcher::track_reorgs`, returning the outcome together with the
prev-hash window after the call. On accept the incoming block's id is
inserted at its height and, once `cur_height` reaches the window size, the
entry `window_size` below it is evicted; on any other outcome the window
is untouched (the code returns or panics before the insert). -/
def trackReorgs (s : FetchSt) (b : RItem) : TrackResult × AList (fun _ : ℕ => ℕ) :=
  let accepted :=
    let m := s.ph.insert b.height b.id
    if windowSize ≤ s.cur then m.erase (s.cur - windowSize) else m
  if s.cur = 0 then (.accept, accepted)
  else
    match s.ph.lookup (s.cur - 1) with
    | some stored => if stored = b.prev then (.accept, accepted) else (.reorg, s.ph)
    | none =>
      match minKey s.ph with
      | none => (.panicEmpty, s.ph)
      | some mn =>
        if s.cur < mn then (.panicDeep, s.ph)
        else
          match maxKey s.ph with
          | none => (.panicEmpty, s.ph)
          | some mx =>
            if s.cur = mx + 1 then (.accept, accepted) else (.panicGap, s.ph)

/-- `Fetcher::reset_on_reorg` (together with the buffer clearing done by
`stop_workers`): decrement `cur_height` by one, drop all buffered
out-of-order items, keep the prev-hash window. -/
def resetOnReorg (s : FetchSt) : FetchSt :=
  { cur := s.cur - 1, ph := s.ph, buf := ∅ }

/-- Events observable on the fetcher's output: a delivered block, a reorg
detection (carrying the height at which the mismatch was found), or a
process abort (`panic!`/`assert!`). -/
inductive FEvent where
  | emit (b : RItem) : FEvent
  | reorg (h : ℕ) : FEvent
  | panic : FEvent
deriving DecidableEq

/-- Handle a block whose height equals `cur_height` (the common body of the
two branches of `Fetcher::next`): run the reorg check, then either deliver
it and advance, rewind via `resetOnReorg`, or abort. -/
def processAt (s : FetchSt) (it : RItem) : FetchSt × FEvent :=
  match trackReorgs s it with
  | (.accept, ph') => ({ cur := s.cur + 1, ph := ph', buf := s.buf }, .emit it)
  | (.reorg, _) => (resetOnReorg s, .reorg s.cur)
  | _ => (s, .panic)

/-- The state after accepting a block: height advanced, window updated. -/
def acceptSt (s : FetchSt) (it : RItem) : FetchSt :=
  { cur := s.cur + 1, ph := (trackReorgs s it).2, buf := s.buf }

/-- The state with the block at `cur_height` popped from the buffer. -/
def popBuf (s : FetchSt) : FetchSt :=
  { s with buf := s.buf.erase s.cur }

/-- Drain the out-of-order buffer: as long as the buffer holds the block at
`cur_height`, pop and process it (first branch of the `retry_on_reorg`
loop in `Fetcher::next`). `fuel` bounds iterations; each iteration removes
one buffered item, so `buf` size is always enough fuel. -/
def drainBuf : ℕ → FetchSt → FetchSt × List FEvent
  | 0, s => (s, [])
  | fuel + 1, s =>
    match s.buf.lookup s.cur with
    | none => (s, [])
    | some it =>
      match processAt (popBuf s) it with
      | (s1, .emit b) =>
        let r := drainBuf fuel s1
        (r.1, .emit b :: r.2)
      | (s1, ev) => (s1, [ev])

/-- Process one item received from the worker channel: deliver it if it is
the one being waited for (then drain the buffer), park it if it is ahead,
abort if it is behind (`assert!(item.height > self.cur_height)`). -/
def fstep (s : FetchSt) (item : RItem) : FetchSt × List FEvent :=
  if item.height = s.cur then
    match processAt s item with
    | (s1, .emit b) =>
      let r := drainBuf s1.buf.entries.length s1
      (r.1, .emit b :: r.2)
    | (s1, ev) => (s1, [ev])
  else if item.height < s.cur then (s, [.panic])
  else ({ s with buf := s.buf.insert item.height item }, [])

/-- Run the fetcher over a sequence of received items, collecting the event
trace. A panic aborts the run. -/
def frun (s : FetchSt) : List RItem → List FEvent
  | [] => []
  | it :: rest =>
    let r := fstep s it
    if FEvent.panic ∈ r.2 then r.2 else r.2 ++ frun r.1 rest

/-- Initial fetcher state from `Fetcher::new`: either genesis, or resuming
just past a `last_block` whose hash seeds the prev-hash window. -/
def mkFetchSt (lastBlock : Option (ℕ × ℕ)) : FetchSt :=
  match lastBlock with
  | none => { cur := 0, ph := ∅, buf := ∅ }
  | some (h, id) => { cur := h + 1, ph := (∅ : AList (fun _ : ℕ => ℕ)).insert h id, buf := ∅ }

/-- The delivered block a chain obligation refers to, after a list of
events: the last emitted block, unless a reorg or abort intervened. -/
def chainLast : Option RItem → List FEvent → Option RItem
  | l, [] => l
  | _, .emit b :: rest => chainLast (some b) rest
  | _, .reorg _ :: rest => chainLast none rest
  | _, .panic :: rest => chainLast none rest

/-- Chain correctness of an event trace relative to the previously
delivered block: every delivery directly following a delivery (with no
reorg in between) has height one more and prev-hash linking to it; a panic
ends the trace. -/
def ChainOk : Option RItem → List FEvent → Prop
  | _, [] => True
  | last, .emit b :: rest =>
    (∀ bl, last = some bl → b.height = bl.height + 1 ∧ b.prev = bl.id) ∧
      ChainOk (some b) rest
  | _, .reorg _ :: rest => ChainOk none rest
  | _, .panic :: rest => rest = []

/-- Height correctness of an event trace relative to the height expected
for the next delivery: deliveries carry the expected height; a reorg at
height `h` makes the next expected height `h - 1`. -/
def HeightOk : Option ℕ → List FEvent → Prop
  | _, [] => True
  | e, .emit b :: rest =>
    (∀ x, e = some x → b.height = x) ∧ HeightOk (some (b.height + 1)) rest
  | _, .reorg h :: rest => HeightOk (some (h - 1)) rest
  | _, .panic :: rest => rest = []

/-- The height expected for the delivery following a list of events, given
the height expected before it. -/
def heightLast : Option ℕ → List FEvent → Option ℕ
  | e, [] => e
  | _, .emit b :: rest => heightLast (some (b.height + 1)) rest
  | _, .reorg h :: rest => heightLast (some (h - 1)) rest
  | _, .panic :: rest => heightLast none rest

/-- Events that are neither a delivery nor a reorg (used to say "no
delivery and no reorg occurred between two deliveries"). -/
def NotDelivery : FEvent → Prop
  | .emit _ => False
  | .reorg _ => False
  | .panic => True

/-- Buffer well-formedness: `out_of_order_items` maps each height to an
item of that height. -/
def BufInv (s : FetchSt) : Prop :=
  ∀ k it, s.buf.lookup k = some it → it.height = k

/-- State invariant tying the last delivered block to the fetcher state:
`cur_height` sits one above it and the prev-hash window records its id at
its height. -/
def LastInv (last : Option RItem) (s : FetchSt) : Prop :=
  ∀ bl, last = some bl → s.cur = bl.height + 1 ∧ s.ph.lookup bl.height = some bl.id

/-- Shape of every reachable prev-hash window: either still empty (before
the first block at genesis start), or a contiguous range of heights
`[lo, hi]` spanning less than the window size, with `cur_height` inside
`[lo, hi + 1]`. Reorg rewinds keep the window while decrementing
`cur_height`, so after rewinds `cur_height` may sit strictly below `hi`;
accepts then overwrite in place. -/
def WInv (s : FetchSt) : Prop :=
  ((∀ k : ℕ, k ∉ s.ph) ∧ s.cur = 0) ∨
  (∃ lo hi, lo ≤ s.cur ∧ s.cur ≤ hi + 1 ∧ hi < lo + windowSize ∧
    ∀ k : ℕ, k ∈ s.ph ↔ lo ≤ k ∧ k ≤ hi)

/-! ## The file-order reorderer (`Reorder` in `reorder.rs`)

`FsBlock` itself is declared outside the provided sources (only its users
are available), so its shape is modelled from the spec's
`FileBlockRecord`: `{file_handle, start_offset, end_offset, hash,
prev_hash, next}`; the file handle and offsets play no role in the
reordering logic and are dropped here. Likewise the released
`BlockExtra` (the spec's `CanonicalBlock`) and its `TryFrom<FsBlock>`
conversion, which carries over hash, prev-hash and `next` and gets its
height assigned by the reorderer.
-/

/-- Modelled from the spec: `FileBlockRecord` / `FsBlock` — a block located
on disk, with its hash, prev-hash, and the successor list `next` filled in
by the reorderer (records enter the reorderer with `next = []`). -/
structure FsBlock where
  hash : ℕ
  prev : ℕ
  next : List ℕ
deriving DecidableEq

/-- The reorderer's buffer: `blocks` (`by_hash`) and `follows`
(`pending_children`), plus the configured `max_reorg` depth. Mirrors
`OutOfOrderBlocks`. -/
structure OutOfOrderBlocks where
  blocks : AList (fun _ : ℕ => FsBlock)
  follows : AList (fun _ : ℕ => List ℕ)
  maxReorg : ℕ

/-- `OutOfOrderBlocks::add`: register the record under its parent in
`follows`, adopt any children already waiting for it, link it into its
parent's `next` if the parent is buffered, then insert it by hash. -/
def OutOfOrderBlocks.add (s : OutOfOrderBlocks) (r : FsBlock) : OutOfOrderBlocks :=
  let follows1 := s.follows.insert r.prev (((s.follows.lookup r.prev).getD []) ++ [r.hash])
  let adopted := (follows1.lookup r.hash).getD []
  let follows2 := follows1.erase r.hash
  let r1 : FsBlock := { r with next := r.next ++ adopted }
  let blocks1 :=
    match s.blocks.lookup r.prev with
    | some pb => s.blocks.insert r.prev { pb with next := pb.next ++ [r.hash] }
    | none => s.blocks
  { s with follows := follows2, blocks := blocks1.insert r1.hash r1 }

/-- The recursion of `OutOfOrderBlocks::exist_and_has_followers`: a
depth-bounded DFS along `next` links, accumulating the followed `path`,
that returns the path's first hop once the path reaches `max_reorg`
hashes. `fuel` mirrors the remaining depth `max_reorg - path.len()`, which
makes the recursion structural; the fuel-exhausted branch is unreachable
from the entry point. -/
def existGo (blocks : AList (fun _ : ℕ => FsBlock)) (maxReorg : ℕ) :
    (fuel : ℕ) → (hash : ℕ) → (path : List ℕ) → Option ℕ
  | fuel, hash, path =>
    if maxReorg ≤ path.length then path.head?
    else
      match fuel with
      | 0 => none
      | fuel + 1 =>
        match blocks.lookup hash with
        | none => none
        | some block =>
          block.next.findSome? (fun nxt => existGo blocks maxReorg fuel nxt (path ++ [nxt]))

/-- `OutOfOrderBlocks::exist_and_has_followers(hash, path)`. -/
def existAndHasFollowers (s : OutOfOrderBlocks) (hash : ℕ) (path : List ℕ) : Option ℕ :=
  existGo s.blocks s.maxReorg (s.maxReorg - path.length) hash path

/-- `OutOfOrderBlocks::remove`: release the block at `hash` if the DFS
finds `max_reorg` followers, rewriting its `next` to the single chosen
successor and removing it from `blocks`. -/
def OutOfOrderBlocks.remove (s : OutOfOrderBlocks) (hash : ℕ) :
    Option (FsBlock × OutOfOrderBlocks) :=
  match existAndHasFollowers s hash [] with
  | some nxt =>
    match s.blocks.lookup hash with
    | some value => some ({ value with next := [nxt] }, { s with blocks := s.blocks.erase hash })
    | none => none
  | none => none

/-- Existence of a descendant path of length `n` in the `blocks`/`next`
DAG starting at `hash` (the spec's release condition: `hash` has at least
`n` known successors on some branch). -/
def HasPath (blocks : AList (fun _ : ℕ => FsBlock)) (hash : ℕ) : ℕ → Prop
  | 0 => True
  | n + 1 => ∃ b, blocks.lookup hash = some b ∧ ∃ c ∈ b.next, HasPath blocks c n

/-- The released block handed to the consumer; modelled from the spec's
`CanonicalBlock` (`BlockExtra` in the code): height, own hash, prev hash,
and the successor list (rewritten to a single element on release). -/
structure BlockExtra where
  height : ℕ
  blockHash : ℕ
  prevHash : ℕ
  next : List ℕ
deriving DecidableEq

/-- The `Reorder` iterator's state: the height of the next release, the
expected next hash, and the out-of-order buffer. -/
structure ReorderSt where
  height : ℕ
  next : ℕ
  blocks : OutOfOrderBlocks

/-- `Reorder::new(network, max_reorg, iter)`: height 0, expecting the
network's genesis hash, empty buffer. -/
def initReorderSt (genesis maxReorg : ℕ) : ReorderSt :=
  { height := 0, next := genesis, blocks := { blocks := ∅, follows := ∅, maxReorg := maxReorg } }

/-- One outcome of `Reorder::next`: a released block (with the successor
state and the unconsumed input), end of input, or the buffer-overflow
abort. -/
inductive RStep where
  | emit (b : BlockExtra) (st : ReorderSt) (rest : List FsBlock) : RStep
  | eof : RStep
  | overflow : RStep

/-- The release half of `Reorder::next`'s loop body: if
`self.blocks.remove(&self.next)` succeeds, build the released block
(height = current height), rewrite state — new expected hash
`block_extra.next[0]`, defensive cleanup of `follows` and of the released
block's parent, height + 1. `none` when the released record's `next` is
empty only happens for `max_reorg = 0` (where the code would index out of
bounds). -/
def tryRelease (st : ReorderSt) : Option (BlockExtra × ReorderSt) :=
  match OutOfOrderBlocks.remove st.blocks st.next with
  | some (value, blocks') =>
    let be : BlockExtra :=
      { height := st.height, blockHash := value.hash, prevHash := value.prev,
        next := value.next }
    match be.next.head? with
    | some newNext =>
      let blocks'' : OutOfOrderBlocks :=
        { blocks' with follows := blocks'.follows.erase be.blockHash,
                       blocks := blocks'.blocks.erase be.prevHash }
      some (be, { height := st.height + 1, next := newNext, blocks := blocks'' })
    | none => none
  | none => none

/-- `Reorder::next`: try to release the expected block; otherwise ingest
one input record (panicking if the buffer exceeds 10000 — `.overflow`) and
retry; end of input with nothing releasable is end of stream. -/
def reorderNext (st : ReorderSt) : List FsBlock → RStep
  | [] =>
    match tryRelease st with
    | some (b, st') => .emit b st' []
    | none => .eof
  | r :: rest =>
    match tryRelease st with
    | some (b, st') => .emit b st' (r :: rest)
    | none =>
      if 10000 < st.blocks.blocks.entries.length then .overflow
      else reorderNext { st with blocks := st.blocks.add r } rest

/-- Pull the reorderer repeatedly, collecting released blocks. `fuel`
bounds the number of releases. -/
def reorderRun : ℕ → ReorderSt → List FsBlock → List BlockExtra
  | 0, _, _ => []
  | fuel + 1, st, inputs =>
    match reorderNext st inputs with
    | .emit b st' rest => b :: reorderRun fuel st' rest
    | _ => []

/-! ## Claim C7: detect's error behavior -/

/-- A decoder that fails on every input without consuming bytes (a file
whose blocks are all corrupt or truncated). -/
def failDecoder : Decoder := fun _ => (none, 0)

/-- A concrete decoder for the C7 scenarios: it recognises the two-byte
block payload `[10, 11]` (hash 100, prev 0) and fails on anything else. -/
def toyDecoder : Decoder := fun s =>
  match s with
  | 10 :: 11 :: _ => (some (100, 0), 2)
  | _ => (none, 0)

/-- No byte among the last four of the file is the magic's top byte — the
static condition ruling out a magic hit with fewer than 4 bytes left for
the size field. -/
def NoTailMagicByte (magic : ℕ) (bytes : List ℕ) : Prop :=
  ∀ i b, bytes.length ≤ i + 4 → bytes[i]? = some b → b ≠ magic >>> 24

/-- Input well-formedness for the reorderer, relative to a ground-truth
parent assignment `P` (a block hash determines its prev-hash, since the
hash commits to the header): every record's `prev` is `P` of its hash, and
records arrive from the detector with an empty `next` list. -/
def InputsOk (P : ℕ → ℕ) (inputs : List FsBlock) : Prop :=
  ∀ r ∈ inputs, r.prev = P r.hash ∧ r.next = []

/-- Buffer invariant of the reorderer relative to `P`: every buffered
record sits under its own hash, its `prev` is `P` of its hash, and every
`next`/`follows` link points from a block to a child whose `P` is that
block. -/
def BlocksInv (P : ℕ → ℕ) (s : OutOfOrderBlocks) : Prop :=
  (∀ h b, s.blocks.lookup h = some b →
    b.hash = h ∧ b.prev = P h ∧ ∀ c ∈ b.next, P c = h) ∧
  (∀ k l, s.follows.lookup k = some l → ∀ c ∈ l, P c = k)

/-- State invariant tying the last released block to the reorderer state:
the next height is one above it and the expected next hash is a child of
it. -/
def RLastInv (P : ℕ → ℕ) (last : Option BlockExtra) (st : ReorderSt) : Prop :=
  ∀ bl, last = some bl → st.height = bl.height + 1 ∧ P st.next = bl.blockHash

/-- Chain correctness of the reorderer's output stream: each released
block follows the previous one by one height and links to it by
prev-hash. -/
def ReorderChainOk : Option BlockExtra → List BlockExtra → Prop
  | _, [] => True
  | last, b :: rest =>
    (∀ bl, last = some bl → b.height = bl.height + 1 ∧ b.prevHash = bl.blockHash) ∧
      ReorderChainOk (some b) rest

/-! ## Helper lemmas -/

/-- Disjoint bitwise-or is addition: when `a` fits below bit `k`,
`a ||| (b <<< k)` is `2 ^ k * b + a`. -/
theorem lor_shiftLeft_eq_add {a k : ℕ} (b : ℕ) (h : a < 2 ^ k) :
    a ||| (b <<< k) = 2 ^ k * b + a := by
  apply Nat.eq_of_testBit_eq
  intro j
  rw [Nat.testBit_mul_pow_two_add b h j, Nat.testBit_or, Nat.testBit_shiftLeft]
  by_cases hj : j < k
  · have : ¬ (j ≥ k) := by omega
    simp [this, hj]
  · have hk : (j ≥ k) := by omega
    have ha : a.testBit j = false :=
      Nat.testBit_lt_two_pow (lt_of_lt_of_le h (Nat.pow_le_pow_right (by norm_num) hk))
    simp [hk, hj, ha]

/-- Arithmetic form of `rollPush` for in-range inputs. -/
theorem rollPush_eq_add {w b : ℕ} (hw : w < 2 ^ 32) :
    rollPush w b = 2 ^ 24 * b + w / 2 ^ 8 := by
  have hdiv : w / 2 ^ 8 < 2 ^ 24 := by
    apply Nat.div_lt_iff_lt_mul (by norm_num) |>.mpr
    calc w < 2 ^ 32 := hw
    _ = 2 ^ 24 * 2 ^ 8 := by norm_num
  rw [rollPush, Nat.shiftRight_eq_div_pow, lor_shiftLeft_eq_add b hdiv]

/-- The window stays a u32 when fed bytes. -/
theorem rollPush_lt {w b : ℕ} (hw : w < 2 ^ 32) (hb : b < 2 ^ 8) :
    rollPush w b < 2 ^ 32 := by
  have hdiv : w / 2 ^ 8 < 2 ^ 24 := by
    apply Nat.div_lt_iff_lt_mul (by norm_num) |>.mpr
    calc w < 2 ^ 32 := hw
    _ = 2 ^ 24 * 2 ^ 8 := by norm_num
  rw [rollPush_eq_add hw]
  omega

/-- The top byte of the window after a push is the byte just pushed. -/
theorem rollPush_shiftRight_24 {w b : ℕ} (hw : w < 2 ^ 32) :
    rollPush w b >>> 24 = b := by
  have hdiv : w / 2 ^ 8 < 2 ^ 24 := by
    apply Nat.div_lt_iff_lt_mul (by norm_num) |>.mpr
    calc w < 2 ^ 32 := hw
    _ = 2 ^ 24 * 2 ^ 8 := by norm_num
  rw [rollPush_eq_add hw, Nat.shiftRight_eq_div_pow,
    Nat.mul_add_div (by norm_num : (0:ℕ) < 2 ^ 24), Nat.div_eq_of_lt hdiv, Nat.add_zero]

/-- A push yields the magic only if the pushed byte is the magic's top byte. -/
theorem rollPush_eq_magic_imp {w b magic : ℕ} (hw : w < 2 ^ 32)
    (h : rollPush w b = magic) : b = magic >>> 24 := by
  rw [← h, rollPush_shiftRight_24 hw]

theorem noTailMagicByte_tail {magic b : ℕ} {rest : List ℕ}
    (h : NoTailMagicByte magic (b :: rest)) : NoTailMagicByte magic rest := by
  intro i x hlen hget
  exact h (i + 1) x (by simp; omega) (by simpa using hget)

theorem noTailMagicByte_drop {magic k : ℕ} {bytes : List ℕ}
    (h : NoTailMagicByte magic bytes) : NoTailMagicByte magic (bytes.drop k) := by
  intro i x hlen hget
  rw [List.getElem?_drop] at hget
  exact h (k + i) x (by simp at hlen; omega) hget

theorem bytesLt_tail {b : ℕ} {rest : List ℕ} (h : ∀ x ∈ b :: rest, x < 256) :
    ∀ x ∈ rest, x < 256 := fun x hx => h x (List.mem_cons_of_mem b hx)

theorem bytesLt_drop {k : ℕ} {bytes : List ℕ} (h : ∀ x ∈ bytes, x < 256) :
    ∀ x ∈ bytes.drop k, x < 256 := fun x hx => h x (List.mem_of_mem_drop hx)

/-- With a never-succeeding decoder and no magic-top byte in the last four
positions, the scan loop always completes with the blocks accumulated so
far: decode failures and trailing garbage are skipped, never errors. -/
theorem detectLoop_ok (decode : Decoder) (magic : ℕ) (hmagic : magic < 2 ^ 32)
    (hdec : ∀ s, (decode s).1 = none) :
    ∀ fuel rolling bytes pos acc, rolling < 2 ^ 32 → (∀ b ∈ bytes, b < 256) →
      NoTailMagicByte magic bytes →
      detectLoop decode magic fuel rolling bytes pos acc = .ok acc.reverse := by
  intro fuel
  induction fuel with
  | zero =>
    intro rolling bytes pos acc _ _ _
    cases bytes <;> rfl
  | succ fuel ih =>
    intro rolling bytes pos acc hroll hbytes htail
    cases bytes with
    | nil => rfl
    | cons b rest =>
      by_cases hhit : rollPush rolling b = magic
      · have hb : b = magic >>> 24 := rollPush_eq_magic_imp hroll hhit
        have hlong : 4 ≤ rest.length := by
          by_contra hshort
          exact htail 0 b (by simp; omega) (by simp) hb
        match rest, hlong with
        | s0 :: s1 :: s2 :: s3 :: rest4, _ =>
          have h4 : NoTailMagicByte magic rest4 :=
            noTailMagicByte_tail (noTailMagicByte_tail (noTailMagicByte_tail
              (noTailMagicByte_tail (noTailMagicByte_tail htail))))
          have hb4 : ∀ x ∈ rest4, x < 256 :=
            bytesLt_tail (bytesLt_tail (bytesLt_tail (bytesLt_tail (bytesLt_tail hbytes))))
          simp only [detectLoop]
          rw [if_pos hhit]
          rcases hdc : decode rest4 with ⟨o, c⟩
          have ho : o = none := by
            have := hdec rest4
            rw [hdc] at this
            exact this
          subst ho
          simp only []
          rw [hhit]
          exact ih magic (rest4.drop c) (pos + 5 + c) acc hmagic
            (bytesLt_drop hb4) (noTailMagicByte_drop h4)
      · have hb : b < 256 := hbytes b (List.mem_cons_self b rest)
        simp only [detectLoop]
        rw [if_neg hhit]
        exact ih (rollPush rolling b) rest (pos + 1) acc (rollPush_lt hroll hb)
          (bytesLt_tail hbytes) (noTailMagicByte_tail htail)

theorem alist_keys_length {α : Type} {β : α → Type} (s : AList β) :
    s.keys.length = s.entries.length := by
  simp [AList.keys, List.keys]

/-- `track_reorgs` reports a reorg exactly when a hash is recorded at
`cur_height - 1` and differs from the incoming block's prev-hash. -/
theorem trackReorgs_reorg_iff (s : FetchSt) (b : RItem) :
    (trackReorgs s b).1 = .reorg ↔
      0 < s.cur ∧ ∃ stored, s.ph.lookup (s.cur - 1) = some stored ∧ stored ≠ b.prev := by
  unfold trackReorgs
  by_cases h0 : s.cur = 0
  · simp [h0]
  · simp only [h0, if_false, Nat.pos_of_ne_zero h0, true_and]
    rcases hl : s.ph.lookup (s.cur - 1) with _ | stored
    · rcases hmn : minKey s.ph with _ | mn
      · simp
      · by_cases hlt : s.cur < mn
        · simp [hlt]
        · rcases hmx : maxKey s.ph with _ | mx
          · simp [hlt]
          · simp only [hlt, if_false]
            by_cases he : s.cur = mx + 1 <;> simp [he]
    · by_cases he : stored = b.prev <;> simp [he]

/-- On any outcome other than accept, `track_reorgs` leaves the prev-hash
window untouched. -/
theorem trackReorgs_nonaccept_window (s : FetchSt) (b : RItem)
    (h : (trackReorgs s b).1 ≠ .accept) : (trackReorgs s b).2 = s.ph := by
  unfold trackReorgs at *
  by_cases h0 : s.cur = 0
  · simp [h0] at h
  · simp only [h0, if_false] at *
    rcases hl : s.ph.lookup (s.cur - 1) with _ | stored
    · rcases hmn : minKey s.ph with _ | mn
      · simp [hmn, hl]
      · by_cases hlt : s.cur < mn
        · simp [hmn, hl, hlt]
        · rcases hmx : maxKey s.ph with _ | mx
          · simp [hmn, hl, hlt, hmx]
          · simp only [hmn, hl, hlt, hmx, if_false] at *
            by_cases he : s.cur = mx + 1
            · simp [he] at h
            · simp [he]
    · by_cases he : stored = b.prev
      · simp [hl, he] at h
      · simp [hl, he]

/-- On accept, the window is the incoming block's id inserted at its
height, with the entry `window_size` below `cur_height` evicted once
`cur_height` reaches the window size. -/
theorem trackReorgs_accept_window (s : FetchSt) (b : RItem)
    (h : (trackReorgs s b).1 = .accept) :
    (trackReorgs s b).2 =
      (if windowSize ≤ s.cur
        then (s.ph.insert b.height b.id).erase (s.cur - windowSize)
        else s.ph.insert b.height b.id) := by
  unfold trackReorgs at *
  by_cases h0 : s.cur = 0
  · simp [h0]
  · simp only [h0, if_false] at *
    rcases hl : s.ph.lookup (s.cur - 1) with _ | stored
    · rcases hmn : minKey s.ph with _ | mn
      · simp [hmn, hl] at h
      · by_cases hlt : s.cur < mn
        · simp [hmn, hl, hlt] at h
        · rcases hmx : maxKey s.ph with _ | mx
          · simp [hmn, hl, hlt, hmx] at h
          · simp only [hmn, hl, hlt, hmx, if_false] at *
            by_cases he : s.cur = mx + 1
            · simp [he]
            · simp [he] at h
    · by_cases he : stored = b.prev
      · simp [hl, he]
      · simp [hl, he] at h

/-- On accept with a recorded hash at `cur_height - 1`, the incoming
block's prev-hash matches it. -/
theorem trackReorgs_accept_prev (s : FetchSt) (b : RItem)
    (h : (trackReorgs s b).1 = .accept) (hc : 0 < s.cur)
    (stored : ℕ) (hl : s.ph.lookup (s.cur - 1) = some stored) : b.prev = stored := by
  unfold trackReorgs at h
  have h0 : ¬ s.cur = 0 := by omega
  simp only [h0, if_false, hl] at h
  by_cases he : stored = b.prev
  · exact he.symm
  · simp [he] at h

/-- On accept, the new window records the incoming block's id at
`cur_height` (the block's height). -/
theorem trackReorgs_accept_lookup (s : FetchSt) (b : RItem)
    (h : (trackReorgs s b).1 = .accept) (hb : b.height = s.cur) :
    (trackReorgs s b).2.lookup s.cur = some b.id := by
  rw [trackReorgs_accept_window s b h]
  by_cases hw : windowSize ≤ s.cur
  · rw [if_pos hw, AList.lookup_erase_ne (by unfold windowSize at *; omega), hb,
      AList.lookup_insert]
  · rw [if_neg hw, hb, AList.lookup_insert]

/-- Outcome inversion for `processAt`. -/
theorem processAt_inv (s : FetchSt) (it : RItem) :
    (processAt s it = (acceptSt s it, .emit it) ∧ (trackReorgs s it).1 = .accept) ∨
    (processAt s it = (resetOnReorg s, .reorg s.cur) ∧ (trackReorgs s it).1 = .reorg) ∨
    (processAt s it = (s, .panic) ∧ (trackReorgs s it).1 ≠ .accept ∧
      (trackReorgs s it).1 ≠ .reorg) := by
  unfold processAt acceptSt
  rcases htr : trackReorgs s it with ⟨res, m⟩
  cases res with
  | accept => exact Or.inl ⟨by simp [htr], by simp [htr]⟩
  | reorg => exact Or.inr (Or.inl ⟨rfl, by simp [htr]⟩)
  | panicDeep => exact Or.inr (Or.inr ⟨rfl, by simp [htr], by simp [htr]⟩)
  | panicGap => exact Or.inr (Or.inr ⟨rfl, by simp [htr], by simp [htr]⟩)
  | panicEmpty => exact Or.inr (Or.inr ⟨rfl, by simp [htr], by simp [htr]⟩)

theorem chainOk_append {last : Option RItem} {evs1 evs2 : List FEvent}
    (h1 : ChainOk last evs1) (hnp : FEvent.panic ∉ evs1)
    (h2 : ChainOk (chainLast last evs1) evs2) : ChainOk last (evs1 ++ evs2) := by
  induction evs1 generalizing last with
  | nil => exact h2
  | cons e t ih =>
    cases e with
    | emit b =>
      simp only [ChainOk, chainLast, List.cons_append] at *
      exact ⟨h1.1, ih h1.2 (fun hm => hnp (List.mem_cons_of_mem _ hm)) h2⟩
    | reorg h =>
      simp only [ChainOk, chainLast, List.cons_append] at *
      exact ih h1 (fun hm => hnp (List.mem_cons_of_mem _ hm)) h2
    | panic => exact absurd (List.mem_cons_self _ _) hnp

theorem heightOk_append {e : Option ℕ} {evs1 evs2 : List FEvent}
    (h1 : HeightOk e evs1) (hnp : FEvent.panic ∉ evs1)
    (h2 : HeightOk (heightLast e evs1) evs2) : HeightOk e (evs1 ++ evs2) := by
  induction evs1 generalizing e with
  | nil => exact h2
  | cons ev t ih =>
    cases ev with
    | emit b =>
      simp only [HeightOk, heightLast, List.cons_append] at *
      exact ⟨h1.1, ih h1.2 (fun hm => hnp (List.mem_cons_of_mem _ hm)) h2⟩
    | reorg h =>
      simp only [HeightOk, heightLast, List.cons_append] at *
      exact ih h1 (fun hm => hnp (List.mem_cons_of_mem _ hm)) h2
    | panic => exact absurd (List.mem_cons_self _ _) hnp

theorem bufInv_erase {s : FetchSt} (h : BufInv s) (k : ℕ) :
    BufInv { s with buf := s.buf.erase k } := by
  intro k' it hk
  by_cases he : k' = k
  · subst he
    rw [AList.lookup_erase] at hk
    exact absurd hk (by simp)
  · rw [AList.lookup_erase_ne he] at hk
    exact h k' it hk

/-- Combined correctness of one buffer-draining pass: the emitted events
are chain- and height-correct, the invariants persist, and (absent a
panic) the expected height tracks the state's `cur_height`. -/
theorem drainBuf_spec (fuel : ℕ) :
    ∀ (s : FetchSt) (last : Option RItem), BufInv s → LastInv last s →
      ChainOk last (drainBuf fuel s).2 ∧
      HeightOk (some s.cur) (drainBuf fuel s).2 ∧
      BufInv (drainBuf fuel s).1 ∧
      LastInv (chainLast last (drainBuf fuel s).2) (drainBuf fuel s).1 ∧
      (FEvent.panic ∉ (drainBuf fuel s).2 →
        heightLast (some s.cur) (drainBuf fuel s).2 = some (drainBuf fuel s).1.cur) := by
  induction fuel with
  | zero =>
    intro s last hbuf hlast
    exact ⟨trivial, trivial, hbuf, hlast, fun _ => rfl⟩
  | succ fuel ih =>
    intro s last hbuf hlast
    rcases hl : s.buf.lookup s.cur with _ | it
    · simp only [drainBuf, hl]
      exact ⟨trivial, trivial, hbuf, hlast, fun _ => rfl⟩
    · have hit : it.height = s.cur := hbuf s.cur it hl
      have hbuf0 : BufInv (popBuf s) := bufInv_erase hbuf s.cur
      have hlast0 : LastInv last (popBuf s) := hlast
      rcases processAt_inv (popBuf s) it with ⟨hpa, hacc⟩ | ⟨hpa, _⟩ | ⟨hpa, _, _⟩
      · -- accepted: emit then keep draining
        have hd : drainBuf (fuel + 1) s =
            ((drainBuf fuel (acceptSt (popBuf s) it)).1,
              .emit it :: (drainBuf fuel (acceptSt (popBuf s) it)).2) := by
          simp only [drainBuf, hl, hpa]
        have hoblig : ∀ bl, last = some bl →
            it.height = bl.height + 1 ∧ it.prev = bl.id := by
          intro bl hbl
          obtain ⟨hcur, hph⟩ := hlast bl hbl
          refine ⟨by omega, ?_⟩
          exact trackReorgs_accept_prev (popBuf s) it hacc
            (by simp [popBuf]; omega) bl.id
            (by simp only [popBuf]; rw [show s.cur - 1 = bl.height by omega]; exact hph)
        have hcur1 : (acceptSt (popBuf s) it).cur = s.cur + 1 := rfl
        have hbuf1 : BufInv (acceptSt (popBuf s) it) := fun k x hk => hbuf0 k x hk
        have hlast1 : LastInv (some it) (acceptSt (popBuf s) it) := by
          intro bl hbl
          cases hbl
          refine ⟨by rw [hcur1, hit], ?_⟩
          have := trackReorgs_accept_lookup (popBuf s) it hacc hit
          rw [hit]
          exact this
        obtain ⟨ihc, ihh, ihb, ihl, ihe⟩ :=
          ih (acceptSt (popBuf s) it) (some it) hbuf1 hlast1
        rw [hd]
        refine ⟨⟨hoblig, ihc⟩, ⟨fun x hx => by cases hx; exact hit, ?_⟩, ihb, ihl, ?_⟩
        · rw [show it.height + 1 = (acceptSt (popBuf s) it).cur by rw [hcur1, hit]]
          exact ihh
        · intro hnp
          simp only [heightLast]
          rw [show it.height + 1 = (acceptSt (popBuf s) it).cur by rw [hcur1, hit]]
          exact ihe (fun hm => hnp (List.mem_cons_of_mem _ hm))
      · -- reorg: rewind, stop draining
        have hd : drainBuf (fuel + 1) s = (resetOnReorg (popBuf s), [.reorg s.cur]) := by
          simp only [drainBuf, hl, hpa]
          rfl
        rw [hd]
        refine ⟨trivial, trivial, ?_, ?_, fun _ => rfl⟩
        · intro k x hk
          rw [show (resetOnReorg (popBuf s)).buf = ∅ from rfl, AList.lookup_empty] at hk
          cases hk
        · intro bl hbl
          simp [chainLast] at hbl
      · -- abort: stop
        have hd : drainBuf (fuel + 1) s = (popBuf s, [.panic]) := by
          simp only [drainBuf, hl, hpa]
        rw [hd]
        refine ⟨rfl, rfl, hbuf0, ?_, ?_⟩
        · intro bl hbl
          simp [chainLast] at hbl
        · intro hnp
          exact absurd (List.mem_cons_self _ _) hnp

/-- Combined correctness of one fetcher step. -/
theorem fstep_spec (s : FetchSt) (item : RItem) (last : Option RItem)
    (hbuf : BufInv s) (hlast : LastInv last s) :
    ChainOk last (fstep s item).2 ∧
    HeightOk (some s.cur) (fstep s item).2 ∧
    BufInv (fstep s item).1 ∧
    LastInv (chainLast last (fstep s item).2) (fstep s item).1 ∧
    (FEvent.panic ∉ (fstep s item).2 →
      heightLast (some s.cur) (fstep s item).2 = some (fstep s item).1.cur) := by
  by_cases heq : item.height = s.cur
  · rcases processAt_inv s item with ⟨hpa, hacc⟩ | ⟨hpa, _⟩ | ⟨hpa, _, _⟩
    · -- accepted: emit then drain
      have hd : fstep s item =
          ((drainBuf (acceptSt s item).buf.entries.length (acceptSt s item)).1,
            .emit item ::
              (drainBuf (acceptSt s item).buf.entries.length (acceptSt s item)).2) := by
        simp only [fstep, if_pos heq, hpa]
      have hoblig : ∀ bl, last = some bl →
          item.height = bl.height + 1 ∧ item.prev = bl.id := by
        intro bl hbl
        obtain ⟨hcur, hph⟩ := hlast bl hbl
        refine ⟨by omega, ?_⟩
        exact trackReorgs_accept_prev s item hacc (by omega) bl.id
          (by rw [show s.cur - 1 = bl.height by omega]; exact hph)
      have hcur1 : (acceptSt s item).cur = s.cur + 1 := rfl
      have hbuf1 : BufInv (acceptSt s item) := fun k x hk => hbuf k x hk
      have hlast1 : LastInv (some item) (acceptSt s item) := by
        intro bl hbl
        cases hbl
        exact ⟨by rw [hcur1, heq], by rw [heq]; exact trackReorgs_accept_lookup s item hacc heq⟩
      obtain ⟨ihc, ihh, ihb, ihl, ihe⟩ :=
        drainBuf_spec (acceptSt s item).buf.entries.length (acceptSt s item)
          (some item) hbuf1 hlast1
      rw [hd]
      refine ⟨⟨hoblig, ihc⟩, ⟨fun x hx => by cases hx; exact heq, ?_⟩, ihb, ihl, ?_⟩
      · rw [show item.height + 1 = (acceptSt s item).cur by rw [hcur1, heq]]
        exact ihh
      · intro hnp
        simp only [heightLast]
        rw [show item.height + 1 = (acceptSt s item).cur by rw [hcur1, heq]]
        exact ihe (fun hm => hnp (List.mem_cons_of_mem _ hm))
    · -- reorg
      have hd : fstep s item = (resetOnReorg s, [.reorg s.cur]) := by
        simp only [fstep, if_pos heq, hpa]
      rw [hd]
      refine ⟨trivial, trivial, ?_, ?_, fun _ => rfl⟩
      · intro k x hk
        rw [show (resetOnReorg s).buf = ∅ from rfl, AList.lookup_empty] at hk
        cases hk
      · intro bl hbl
        simp [chainLast] at hbl
    · -- abort
      have hd : fstep s item = (s, [.panic]) := by
        simp only [fstep, if_pos heq, hpa]
      rw [hd]
      refine ⟨rfl, rfl, hbuf, ?_, ?_⟩
      · intro bl hbl
        simp [chainLast] at hbl
      · intro hnp
        exact absurd (List.mem_cons_self _ _) hnp
  · by_cases hlt : item.height < s.cur
    · -- behind the cursor: assert! failure
      have hd : fstep s item = (s, [.panic]) := by
        simp only [fstep, if_neg heq, if_pos hlt]
      rw [hd]
      refine ⟨rfl, rfl, hbuf, ?_, ?_⟩
      · intro bl hbl
        simp [chainLast] at hbl
      · intro hnp
        exact absurd (List.mem_cons_self _ _) hnp
    · -- ahead of the cursor: park it
      have hd : fstep s item = ({ s with buf := s.buf.insert item.height item }, []) := by
        simp only [fstep, if_neg heq, if_neg hlt]
      rw [hd]
      refine ⟨trivial, trivial, ?_, hlast, fun _ => rfl⟩
      intro k x hk
      by_cases hkh : k = item.height
      · subst hkh
        rw [AList.lookup_insert] at hk
        cases hk
        rfl
      · rw [AList.lookup_insert_ne hkh] at hk
        exact hbuf k x hk

/-- Chain and height correctness of a full fetcher run from any state
satisfying the invariants. -/
theorem frun_spec (items : List RItem) :
    ∀ (s : FetchSt) (last : Option RItem), BufInv s → LastInv last s →
      ChainOk last (frun s items) ∧ HeightOk (some s.cur) (frun s items) := by
  induction items with
  | nil => exact fun s last _ _ => ⟨trivial, trivial⟩
  | cons it rest ih =>
    intro s last hbuf hlast
    obtain ⟨hc, hh, hb, hl, he⟩ := fstep_spec s it last hbuf hlast
    by_cases hp : FEvent.panic ∈ (fstep s it).2
    · have hd : frun s (it :: rest) = (fstep s it).2 := by
        simp only [frun, if_pos hp]
      rw [hd]
      exact ⟨hc, hh⟩
    · have hd : frun s (it :: rest) = (fstep s it).2 ++ frun (fstep s it).1 rest := by
        simp only [frun, if_neg hp]
      rw [hd]
      obtain ⟨ihc, ihh⟩ := ih (fstep s it).1 (chainLast last (fstep s it).2) hb hl
      refine ⟨chainOk_append hc hp ihc, heightOk_append hh hp ?_⟩
      rw [he hp]
      exact ihh

/-- An association list whose membership is exactly a height range `[lo, hi]`
has exactly `hi + 1 - lo` entries. -/
theorem alist_length_of_mem_iff {β : Type} {m : AList (fun _ : ℕ => β)} {lo hi : ℕ}
    (h : ∀ k : ℕ, k ∈ m ↔ lo ≤ k ∧ k ≤ hi) : m.entries.length = hi + 1 - lo := by
  have hfin : m.keys.toFinset = Finset.Icc lo hi := by
    ext k
    rw [List.mem_toFinset, Finset.mem_Icc, ← AList.mem_keys]
    exact h k
  have hcard : m.keys.toFinset.card = m.keys.length :=
    List.toFinset_card_of_nodup (AList.keys_nodup m)
  rw [← alist_keys_length m, ← hcard, hfin, Nat.card_Icc]

/-- A window whose keys are exactly a range of span below `windowSize`,
with the next height inside `[lo, hi + 1]`, is within the size bound and
well shaped. -/
theorem winv_accept_core (m : AList (fun _ : ℕ => ℕ)) (buf : AList (fun _ : ℕ => RItem))
    (lo hi cur : ℕ) (hmem : ∀ k : ℕ, k ∈ m ↔ lo ≤ k ∧ k ≤ hi)
    (h1 : lo ≤ cur) (h2 : cur ≤ hi + 1) (h3 : hi < lo + windowSize) :
    m.entries.length ≤ windowSize ∧ WInv ⟨cur, m, buf⟩ := by
  refine ⟨?_, Or.inr ⟨lo, hi, h1, h2, h3, hmem⟩⟩
  rw [alist_length_of_mem_iff hmem]
  omega

/-- An accepting reorg check from a well-shaped window leaves at most
`windowSize` entries and a well-shaped window for the advanced height.
The incoming height equals `cur_height` (the `debug_assert!` in
`Fetcher::track_reorgs`), which may sit anywhere in `[lo, hi + 1]`: after
reorg rewinds the insert overwrites in place; at the top it extends the
range, and the eviction removes the low end exactly when the range is
full. -/
theorem winv_accept {s : FetchSt} {b : RItem} (hbh : b.height = s.cur)
    (hacc : (trackReorgs s b).1 = .accept) (hw : WInv s) :
    (trackReorgs s b).2.entries.length ≤ windowSize ∧ WInv (acceptSt s b) := by
  have hW : 0 < windowSize := by unfold windowSize; omega
  have hwin := trackReorgs_accept_window s b hacc
  rw [hbh] at hwin
  show (trackReorgs s b).2.entries.length ≤ windowSize ∧
    WInv ⟨s.cur + 1, (trackReorgs s b).2, s.buf⟩
  rcases hw with ⟨hempty, hcur0⟩ | ⟨lo, hi, hlo, hhi, hspan, hmem⟩
  · have hne : ¬ windowSize ≤ s.cur := by omega
    rw [hwin, if_neg hne]
    refine winv_accept_core _ s.buf s.cur s.cur (s.cur + 1) ?_ (by omega) (by omega) (by omega)
    intro k
    rw [AList.mem_insert]
    constructor
    · rintro (rfl | hk)
      · omega
      · exact absurd hk (hempty k)
    · intro hk
      left
      omega
  · by_cases hwdw : windowSize ≤ s.cur
    · rw [hwin, if_pos hwdw]
      by_cases hcase : s.cur ≤ hi
      · refine winv_accept_core _ s.buf lo hi (s.cur + 1) ?_ (by omega) (by omega) hspan
        intro k
        rw [AList.mem_erase, AList.mem_insert, hmem k]
        omega
      · by_cases hfull : lo + windowSize = s.cur
        · refine winv_accept_core _ s.buf (lo + 1) s.cur (s.cur + 1) ?_ (by omega) (by omega)
            (by omega)
          intro k
          rw [AList.mem_erase, AList.mem_insert, hmem k]
          omega
        · refine winv_accept_core _ s.buf lo s.cur (s.cur + 1) ?_ (by omega) (by omega)
            (by omega)
          intro k
          rw [AList.mem_erase, AList.mem_insert, hmem k]
          omega
    · rw [hwin, if_neg hwdw]
      by_cases hcase : s.cur ≤ hi
      · refine winv_accept_core _ s.buf lo hi (s.cur + 1) ?_ (by omega) (by omega) hspan
        intro k
        rw [AList.mem_insert, hmem k]
        omega
      · refine winv_accept_core _ s.buf lo s.cur (s.cur + 1) ?_ (by omega) (by omega)
          (by omega)
        intro k
        rw [AList.mem_insert, hmem k]
        omega

/-- A reorg rewind preserves the window shape: the reorg check found a
hash recorded at `cur_height - 1`, so the range's low end stays at or
below the decremented cursor, however many rewinds happened before. -/
theorem winv_reorg {s : FetchSt} {b : RItem}
    (hr : (trackReorgs s b).1 = .reorg) (hw : WInv s) : WInv (resetOnReorg s) := by
  obtain ⟨hc, stored, hl, _⟩ := (trackReorgs_reorg_iff s b).mp hr
  have hmem1 : s.cur - 1 ∈ s.ph := AList.lookup_isSome.mp (by rw [hl]; rfl)
  rcases hw with ⟨hempty, _⟩ | ⟨lo, hi, hlo, hhi, hspan, hmem⟩
  · exact absurd hmem1 (hempty (s.cur - 1))
  · obtain ⟨h1, _⟩ := (hmem (s.cur - 1)).mp hmem1
    have h2 : lo ≤ s.cur - 1 := by omega
    have h3 : s.cur - 1 ≤ hi + 1 := by omega
    exact Or.inr ⟨lo, hi, h2, h3, hspan, hmem⟩

/-- Handling a block at `cur_height` preserves the window shape, whatever
the reorg check's outcome. -/
theorem winv_processAt {s : FetchSt} {it : RItem} (hit : it.height = s.cur)
    (hw : WInv s) : WInv (processAt s it).1 := by
  rcases processAt_inv s it with ⟨hpa, hacc⟩ | ⟨hpa, hr⟩ | ⟨hpa, _, _⟩
  · rw [hpa]
    exact (winv_accept hit hacc hw).2
  · rw [hpa]
    exact winv_reorg hr hw
  · rw [hpa]
    exact hw

/-- Draining the out-of-order buffer preserves the buffer invariant and
the window shape. -/
theorem winv_drain (fuel : ℕ) :
    ∀ s : FetchSt, BufInv s → WInv s →
      BufInv (drainBuf fuel s).1 ∧ WInv (drainBuf fuel s).1 := by
  induction fuel with
  | zero => exact fun s hbuf hw => ⟨hbuf, hw⟩
  | succ fuel ih =>
    intro s hbuf hw
    rcases hl : s.buf.lookup s.cur with _ | it
    · simp only [drainBuf, hl]
      exact ⟨hbuf, hw⟩
    · have hit : it.height = s.cur := hbuf s.cur it hl
      have hbuf0 : BufInv (popBuf s) := bufInv_erase hbuf s.cur
      have hw0 : WInv (popBuf s) := hw
      rcases processAt_inv (popBuf s) it with ⟨hpa, hacc⟩ | ⟨hpa, hr⟩ | ⟨hpa, _, _⟩
      · have hd : drainBuf (fuel + 1) s =
            ((drainBuf fuel (acceptSt (popBuf s) it)).1,
              .emit it :: (drainBuf fuel (acceptSt (popBuf s) it)).2) := by
          simp only [drainBuf, hl, hpa]
        rw [hd]
        exact ih (acceptSt (popBuf s) it) (fun k x hk => hbuf0 k x hk)
          (winv_accept hit hacc hw0).2
      · have hd : drainBuf (fuel + 1) s = (resetOnReorg (popBuf s), [.reorg s.cur]) := by
          simp only [drainBuf, hl, hpa]
          rfl
        rw [hd]
        refine ⟨?_, winv_reorg hr hw0⟩
        intro k x hk
        rw [show (resetOnReorg (popBuf s)).buf = ∅ from rfl, AList.lookup_empty] at hk
        cases hk
      · have hd : drainBuf (fuel + 1) s = (popBuf s, [.panic]) := by
          simp only [drainBuf, hl, hpa]
        rw [hd]
        exact ⟨hbuf0, hw0⟩

/-- One fetcher step — deliver-and-drain, reorg rewind, abort, or parking
an out-of-order item — preserves the buffer invariant and the window
shape. -/
theorem winv_fstep (s : FetchSt) (item : RItem) (hbuf : BufInv s) (hw : WInv s) :
    BufInv (fstep s item).1 ∧ WInv (fstep s item).1 := by
  by_cases heq : item.height = s.cur
  · rcases processAt_inv s item with ⟨hpa, hacc⟩ | ⟨hpa, hr⟩ | ⟨hpa, _, _⟩
    · have hd : fstep s item =
          ((drainBuf (acceptSt s item).buf.entries.length (acceptSt s item)).1,
            .emit item ::
              (drainBuf (acceptSt s item).buf.entries.length (acceptSt s item)).2) := by
        simp only [fstep, if_pos heq, hpa]
      rw [hd]
      exact winv_drain (acceptSt s item).buf.entries.length (acceptSt s item)
        (fun k x hk => hbuf k x hk) (winv_accept heq hacc hw).2
    · have hd : fstep s item = (resetOnReorg s, [.reorg s.cur]) := by
        simp only [fstep, if_pos heq, hpa]
      rw [hd]
      refine ⟨?_, winv_reorg hr hw⟩
      intro k x hk
      rw [show (resetOnReorg s).buf = ∅ from rfl, AList.lookup_empty] at hk
      cases hk
    · have hd : fstep s item = (s, [.panic]) := by
        simp only [fstep, if_pos heq, hpa]
      rw [hd]
      exact ⟨hbuf, hw⟩
  · by_cases hlt : item.height < s.cur
    · have hd : fstep s item = (s, [.panic]) := by
        simp only [fstep, if_neg heq, if_pos hlt]
      rw [hd]
      exact ⟨hbuf, hw⟩
    · have hd : fstep s item = ({ s with buf := s.buf.insert item.height item }, []) := by
        simp only [fstep, if_neg heq, if_neg hlt]
      rw [hd]
      refine ⟨?_, hw⟩
      intro k x hk
      by_cases hkh : k = item.height
      · subst hkh
        rw [AList.lookup_insert] at hk
        cases hk
        rfl
      · rw [AList.lookup_insert_ne hkh] at hk
        exact hbuf k x hk

/-- The initial fetcher state of `Fetcher::new` has a well-shaped window:
empty at genesis start, a single entry at the resume height otherwise. -/
theorem winv_init (lastBlock : Option (ℕ × ℕ)) : WInv (mkFetchSt lastBlock) := by
  have hW : 0 < windowSize := by unfold windowSize; omega
  rcases lastBlock with _ | ⟨h, id⟩
  · exact Or.inl ⟨fun k => AList.not_mem_empty k, rfl⟩
  · have e1 : h ≤ h + 1 := by omega
    have e2 : h + 1 ≤ h + 1 := le_refl _
    have e3 : h < h + windowSize := by omega
    have hm : ∀ k : ℕ, k ∈ (∅ : AList (fun _ : ℕ => ℕ)).insert h id ↔ h ≤ k ∧ k ≤ h := by
      intro k
      rw [AList.mem_insert]
      constructor
      · rintro (rfl | hk)
        · omega
        · exact absurd hk (AList.not_mem_empty k)
      · intro hk
        left
        omega
    exact Or.inr ⟨h, h, e1, e2, e3, hm⟩

/-- In a height-correct trace, a delivery right after a reorg at height
`h` has height `h - 1`. -/
theorem heightOk_reorg_emit :
    ∀ (evs : List FEvent) (e : Option ℕ) (k h : ℕ) (b : RItem), HeightOk e evs →
      evs[k]? = some (.reorg h) → evs[k + 1]? = some (.emit b) → b.height = h - 1 := by
  intro evs
  induction evs with
  | nil => intro e k h b _ hk; simp at hk
  | cons ev t ih =>
    intro e k h b hok hk hk1
    cases k with
    | zero =>
      simp only [List.getElem?_cons_zero, Option.some.injEq] at hk
      subst hk
      simp only [HeightOk] at hok
      cases t with
      | nil => simp at hk1
      | cons ev2 t2 =>
        simp only [List.getElem?_cons_succ, List.getElem?_cons_zero,
          Option.some.injEq] at hk1
        subst hk1
        simp only [HeightOk] at hok
        exact hok.1 (h - 1) rfl
    | succ k =>
      simp only [List.getElem?_cons_succ] at hk hk1
      cases ev with
      | emit b' =>
        simp only [HeightOk] at hok
        exact ih (some (b'.height + 1)) k h b hok.2 hk hk1
      | reorg h' =>
        simp only [HeightOk] at hok
        exact ih (some (h' - 1)) k h b hok hk hk1
      | panic =>
        simp only [HeightOk] at hok
        subst hok
        simp at hk

/-- In a chain-correct trace whose expected predecessor is `b`, the first
delivery reached without crossing another delivery or a reorg extends
`b`. -/
theorem chainOk_first :
    ∀ (evs : List FEvent) (b : RItem), ChainOk (some b) evs →
      ∀ (m : ℕ) (b2 : RItem), evs[m]? = some (.emit b2) →
        (∀ k, k < m → ∀ e, evs[k]? = some e → NotDelivery e) →
        b2.height = b.height + 1 ∧ b2.prev = b.id := by
  intro evs
  induction evs with
  | nil => intro b _ m b2 hm; simp at hm
  | cons ev t ih =>
    intro b hok m b2 hm hbetween
    cases m with
    | zero =>
      simp only [List.getElem?_cons_zero, Option.some.injEq] at hm
      subst hm
      simp only [ChainOk] at hok
      exact hok.1 b rfl
    | succ m =>
      simp only [List.getElem?_cons_succ] at hm
      have h0 := hbetween 0 (Nat.succ_pos m) ev (by simp)
      cases ev with
      | emit b' => exact absurd h0 (by simp [NotDelivery])
      | reorg h' => exact absurd h0 (by simp [NotDelivery])
      | panic =>
        simp only [ChainOk] at hok
        subst hok
        simp at hm

/-- In a chain-correct trace, any two deliveries with no delivery and no
reorg strictly between them are chained: heights ascend by one and the
prev-hash links back. -/
theorem chainOk_pairs :
    ∀ (evs : List FEvent) (last : Option RItem), ChainOk last evs →
      ∀ (i j : ℕ) (b1 b2 : RItem), evs[i]? = some (.emit b1) →
        evs[j]? = some (.emit b2) → i < j →
        (∀ k, i < k → k < j → ∀ e, evs[k]? = some e → NotDelivery e) →
        b2.height = b1.height + 1 ∧ b2.prev = b1.id := by
  intro evs
  induction evs with
  | nil => intro last _ i j b1 b2 hi; simp at hi
  | cons ev t ih =>
    intro last hok i j b1 b2 hi hj hij hbetween
    cases i with
    | zero =>
      simp only [List.getElem?_cons_zero, Option.some.injEq] at hi
      subst hi
      obtain ⟨j', rfl⟩ : ∃ j', j = j' + 1 := ⟨j - 1, by omega⟩
      simp only [List.getElem?_cons_succ] at hj
      simp only [ChainOk] at hok
      exact chainOk_first t b1 hok.2 j' b2 hj
        (fun k hk e hke => hbetween (k + 1) (by omega) (by omega) e (by simpa using hke))
    | succ i =>
      obtain ⟨j', rfl⟩ : ∃ j', j = j' + 1 := ⟨j - 1, by omega⟩
      simp only [List.getElem?_cons_succ] at hi hj
      have hbetween' : ∀ k, i < k → k < j' → ∀ e, t[k]? = some e → NotDelivery e :=
        fun k hk1 hk2 e hke => hbetween (k + 1) (by omega) (by omega) e (by simpa using hke)
      cases ev with
      | emit b' =>
        simp only [ChainOk] at hok
        exact ih (some b') hok.2 i j' b1 b2 hi hj (by omega) hbetween'
      | reorg h' =>
        simp only [ChainOk] at hok
        exact ih none hok i j' b1 b2 hi hj (by omega) hbetween'
      | panic =>
        simp only [ChainOk] at hok
        subst hok
        simp at hi

/-- `OutOfOrderBlocks::add` preserves the buffer invariant when fed a
well-formed record. -/
theorem blocksInv_add {P : ℕ → ℕ} {s : OutOfOrderBlocks} {r : FsBlock}
    (hinv : BlocksInv P s) (hprev : r.prev = P r.hash) (hnext : r.next = []) :
    BlocksInv P (s.add r) := by
  obtain ⟨hb, hf⟩ := hinv
  have hadopted : ∀ c ∈ ((s.follows.insert r.prev
      (((s.follows.lookup r.prev).getD []) ++ [r.hash])).lookup r.hash).getD [],
      P c = r.hash := by
    intro c hc
    by_cases hrr : r.hash = r.prev
    · rw [← hrr, AList.lookup_insert] at hc
      simp only [Option.getD_some, List.mem_append, List.mem_singleton] at hc
      rcases hc with hc | rfl
      · rcases hlp : s.follows.lookup r.hash with _ | old
        · rw [hlp] at hc
          simp at hc
        · rw [hlp] at hc
          simp only [Option.getD_some] at hc
          exact hf r.hash old hlp c hc
      · rw [← hprev, hrr]
    · rw [AList.lookup_insert_ne hrr] at hc
      rcases hlh : s.follows.lookup r.hash with _ | old
      · rw [hlh] at hc
        simp at hc
      · rw [hlh] at hc
        simp only [Option.getD_some] at hc
        exact hf r.hash old hlh c hc
  constructor
  · intro h b hl
    simp only [OutOfOrderBlocks.add] at hl
    by_cases hh : h = r.hash
    · subst hh
      rw [AList.lookup_insert] at hl
      cases hl
      refine ⟨rfl, hprev, ?_⟩
      intro c hc
      simp only [hnext, List.nil_append] at hc
      exact hadopted c hc
    · rw [AList.lookup_insert_ne hh] at hl
      rcases hpb : s.blocks.lookup r.prev with _ | pb
      · rw [hpb] at hl
        exact hb h b hl
      · rw [hpb] at hl
        by_cases hhp : h = r.prev
        · subst hhp
          rw [AList.lookup_insert] at hl
          cases hl
          obtain ⟨hb1, hb2, hb3⟩ := hb r.prev pb hpb
          refine ⟨hb1, hb2, ?_⟩
          intro c hc
          simp only [List.mem_append, List.mem_singleton] at hc
          rcases hc with hc | rfl
          · exact hb3 c hc
          · exact hprev.symm
        · rw [AList.lookup_insert_ne hhp] at hl
          exact hb h b hl
  · intro k l hl
    simp only [OutOfOrderBlocks.add] at hl
    by_cases hkh : k = r.hash
    · subst hkh
      rw [AList.lookup_erase] at hl
      cases hl
    · rw [AList.lookup_erase_ne hkh] at hl
      by_cases hkp : k = r.prev
      · subst hkp
        rw [AList.lookup_insert] at hl
        cases hl
        intro c hc
        simp only [List.mem_append, List.mem_singleton] at hc
        rcases hc with hc | rfl
        · rcases hlp : s.follows.lookup r.prev with _ | old
          · rw [hlp] at hc
            simp at hc
          · rw [hlp] at hc
            simp only [Option.getD_some] at hc
            exact hf r.prev old hlp c hc
        · exact hprev.symm
      · rw [AList.lookup_insert_ne hkp] at hl
        exact hf k l hl

/-- `add` does not change `maxReorg`. -/
theorem add_maxReorg (s : OutOfOrderBlocks) (r : FsBlock) :
    (s.add r).maxReorg = s.maxReorg := rfl

/-- The DFS's result is the accumulated path's first hop, or — when called
with an empty path — a direct child of the starting block. -/
theorem existGo_first_hop {blocks : AList (fun _ : ℕ => FsBlock)} {maxReorg : ℕ} :
    ∀ (fuel hash : ℕ) (path : List ℕ) (c : ℕ),
      existGo blocks maxReorg fuel hash path = some c →
      path.head? = some c ∨
        (path = [] ∧ ∃ b, blocks.lookup hash = some b ∧ c ∈ b.next) := by
  intro fuel
  induction fuel with
  | zero =>
    intro hash path c h
    simp only [existGo] at h
    by_cases hg : maxReorg ≤ path.length
    · rw [if_pos hg] at h
      exact Or.inl h
    · rw [if_neg hg] at h
      cases h
  | succ fuel ih =>
    intro hash path c h
    simp only [existGo] at h
    by_cases hg : maxReorg ≤ path.length
    · rw [if_pos hg] at h
      exact Or.inl h
    · rw [if_neg hg] at h
      rcases hlk : blocks.lookup hash with _ | block
      · rw [hlk] at h
        cases h
      · rw [hlk] at h
        obtain ⟨nxt, hmem, hrec⟩ := List.exists_of_findSome?_eq_some h
        rcases ih nxt (path ++ [nxt]) c hrec with hhead | ⟨hemp, _⟩
        · cases path with
          | nil =>
            simp only [List.nil_append, List.head?_cons, Option.some.injEq] at hhead
            subst hhead
            exact Or.inr ⟨rfl, block, rfl, hmem⟩
          | cons p ps =>
            simp only [List.cons_append, List.head?_cons] at hhead ⊢
            exact Or.inl hhead
        · exact absurd hemp (by simp)

/-- A helper: `findSome?` succeeds iff the function succeeds on some
element. -/
theorem findSome?_isSome_iff {α β : Type} (l : List α) (f : α → Option β) :
    (l.findSome? f).isSome ↔ ∃ x ∈ l, (f x).isSome := by
  rw [List.findSome?_isSome_iff]

/-- The DFS succeeds exactly when a descendant path of the remaining depth
exists (`fuel` is the remaining depth, `path` the hops taken so far). -/
theorem existGo_isSome_iff (blocks : AList (fun _ : ℕ => FsBlock)) (maxReorg : ℕ) :
    ∀ (n hash : ℕ) (path : List ℕ), maxReorg = path.length + n →
      (path = [] → 0 < n) →
      ((existGo blocks maxReorg n hash path).isSome ↔ HasPath blocks hash n) := by
  intro n
  induction n with
  | zero =>
    intro hash path hlen hpos
    have hg : maxReorg ≤ path.length := by omega
    simp only [existGo, if_pos hg]
    cases path with
    | nil => exact absurd (hpos rfl) (by omega)
    | cons p ps =>
      simp [HasPath]
  | succ n ih =>
    intro hash path hlen hpos
    have hg : ¬ maxReorg ≤ path.length := by omega
    simp only [existGo, if_neg hg]
    rcases hlk : blocks.lookup hash with _ | block
    · simp only [Option.isSome_none, HasPath, hlk]
      constructor
      · intro h
        cases h
      · rintro ⟨b, hb, _⟩
        cases hb
    · simp only [HasPath, hlk]
      rw [findSome?_isSome_iff]
      constructor
      · rintro ⟨c, hc, hrec⟩
        exact ⟨block, rfl, c, hc,
          (ih c (path ++ [c]) (by simp; omega) (by simp)).mp hrec⟩
      · rintro ⟨b, hb, c, hc, hpath⟩
        cases hb
        exact ⟨c, hc, (ih c (path ++ [c]) (by simp; omega) (by simp)).mpr hpath⟩

/-- When the DFS of `remove` succeeds from an empty path (with positive
depth), the starting block is buffered and the chosen hash is one of its
direct children. -/
theorem existAndHasFollowers_child {s : OutOfOrderBlocks} {h c : ℕ}
    (he : existAndHasFollowers s h [] = some c) :
    ∃ b, s.blocks.lookup h = some b ∧ c ∈ b.next := by
  unfold existAndHasFollowers at he
  rcases existGo_first_hop (s.maxReorg - [].length) h [] c he with hhead | ⟨_, hb⟩
  · simp at hhead
  · exact hb

/-- `remove` succeeds exactly when the DFS does; on success the released
record is the buffered one with `next` rewritten to the chosen successor,
and it is deleted from the buffer. -/
theorem remove_spec (s : OutOfOrderBlocks) (h : ℕ) :
    ((OutOfOrderBlocks.remove s h).isSome ↔
      0 < s.maxReorg ∧ (existAndHasFollowers s h []).isSome) ∧
    (∀ v s', OutOfOrderBlocks.remove s h = some (v, s') →
      ∃ c b0, existAndHasFollowers s h [] = some c ∧ s.blocks.lookup h = some b0 ∧
        v = { b0 with next := [c] } ∧
        s' = { s with blocks := s.blocks.erase h }) := by
  constructor
  · unfold OutOfOrderBlocks.remove
    rcases he : existAndHasFollowers s h [] with _ | c
    · simp only [Option.isSome_none]
      exact ⟨fun hc => absurd hc (by simp), fun ⟨_, hc⟩ => by cases hc⟩
    · by_cases hpos : 0 < s.maxReorg
      · obtain ⟨b, hbl, _⟩ := existAndHasFollowers_child he
        rw [hbl]
        simp [hpos]
      · exfalso
        unfold existAndHasFollowers existGo at he
        rw [if_pos (by simp; omega)] at he
        simp at he
  · intro v s' hrm
    unfold OutOfOrderBlocks.remove at hrm
    rcases he : existAndHasFollowers s h [] with _ | c
    · rw [he] at hrm
      cases hrm
    · rw [he] at hrm
      rcases hbl : s.blocks.lookup h with _ | b0
      · rw [hbl] at hrm
        cases hrm
      · rw [hbl] at hrm
        cases hrm
        exact ⟨c, b0, rfl, rfl, rfl, rfl⟩

/-- Release correctness: a successful `tryRelease` emits a block that
(relative to `P`) chains onto the previous release, and re-establishes the
state invariants with the released block as predecessor. -/
theorem tryRelease_spec {P : ℕ → ℕ} {st : ReorderSt} {last : Option BlockExtra}
    {b : BlockExtra} {st' : ReorderSt}
    (hinv : BlocksInv P st.blocks) (hlast : RLastInv P last st)
    (ht : tryRelease st = some (b, st')) :
    (∀ bl, last = some bl → b.height = bl.height + 1 ∧ b.prevHash = bl.blockHash) ∧
    BlocksInv P st'.blocks ∧ RLastInv P (some b) st' ∧
    b.height = st.height ∧ b.blockHash = st.next ∧ b.next = [st'.next] := by
  unfold tryRelease at ht
  rcases hrm : OutOfOrderBlocks.remove st.blocks st.next with _ | ⟨v, blocks'⟩
  · rw [hrm] at ht
    cases ht
  · rw [hrm] at ht
    obtain ⟨c, b0, he, hbl, hv, hs'⟩ := (remove_spec st.blocks st.next).2 v blocks' hrm
    have hpos : 0 < st.blocks.maxReorg := by
      have : (OutOfOrderBlocks.remove st.blocks st.next).isSome := by
        rw [hrm]; rfl
      exact ((remove_spec st.blocks st.next).1.mp this).1
    obtain ⟨bb, hbl2, hc⟩ := existAndHasFollowers_child he
    rw [hbl] at hbl2
    cases hbl2
    obtain ⟨hb1, hb2, hb3⟩ := hinv.1 st.next b0 hbl
    have hPc : P c = st.next := hb3 c hc
    subst hv
    simp only [List.head?_cons] at ht
    cases ht
    refine ⟨?_, ?_, ?_, rfl, hb1, rfl⟩
    · intro bl hbl'
      obtain ⟨hh, hn⟩ := hlast bl hbl'
      exact ⟨hh, by rw [show ({ b0 with next := [c] } : FsBlock).prev = b0.prev from rfl,
        hb2, hn]⟩
    · constructor
      · intro h2 b2 hl2
        subst hs'
        simp only at hl2
        by_cases hh2 : h2 = b0.prev
        · subst hh2
          rw [AList.lookup_erase] at hl2
          cases hl2
        · rw [AList.lookup_erase_ne hh2] at hl2
          by_cases hh3 : h2 = st.next
          · subst hh3
            rw [AList.lookup_erase] at hl2
            cases hl2
          · rw [AList.lookup_erase_ne hh3] at hl2
            exact hinv.1 h2 b2 hl2
      · intro k l hl2
        subst hs'
        simp only at hl2
        by_cases hk2 : k = b0.hash
        · subst hk2
          rw [AList.lookup_erase] at hl2
          cases hl2
        · rw [AList.lookup_erase_ne hk2] at hl2
          exact hinv.2 k l hl2
    · intro bl hbl'
      cases hbl'
      exact ⟨rfl, by rw [hPc, hb1]⟩

/-- Step correctness of `Reorder::next`: an emitted block chains onto the
previous one, and the invariants carry to the successor state and the
unconsumed input. -/
theorem reorderNext_spec {P : ℕ → ℕ} :
    ∀ (inputs : List FsBlock) (st : ReorderSt) (last : Option BlockExtra)
      (b : BlockExtra) (st' : ReorderSt) (rest : List FsBlock),
      BlocksInv P st.blocks → RLastInv P last st → InputsOk P inputs →
      reorderNext st inputs = .emit b st' rest →
      (∀ bl, last = some bl → b.height = bl.height + 1 ∧ b.prevHash = bl.blockHash) ∧
      BlocksInv P st'.blocks ∧ RLastInv P (some b) st' ∧ InputsOk P rest := by
  intro inputs
  induction inputs with
  | nil =>
    intro st last b st' rest hinv hlast hin hstep
    simp only [reorderNext] at hstep
    rcases ht : tryRelease st with _ | ⟨b2, st2⟩
    · rw [ht] at hstep
      cases hstep
    · rw [ht] at hstep
      cases hstep
      obtain ⟨h1, h2, h3, _⟩ := tryRelease_spec hinv hlast ht
      exact ⟨h1, h2, h3, hin⟩
  | cons r rest0 ih =>
    intro st last b st' rest hinv hlast hin hstep
    simp only [reorderNext] at hstep
    rcases ht : tryRelease st with _ | ⟨b2, st2⟩
    · rw [ht] at hstep
      by_cases hov : 10000 < st.blocks.blocks.entries.length
      · rw [if_pos hov] at hstep
        cases hstep
      · rw [if_neg hov] at hstep
        have hr := hin r (List.mem_cons_self r rest0)
        have hinv' : BlocksInv P (st.blocks.add r) := blocksInv_add hinv hr.1 hr.2
        have hin' : InputsOk P rest0 := fun x hx => hin x (List.mem_cons_of_mem r hx)
        exact ih { st with blocks := st.blocks.add r } last b st' rest hinv' hlast hin' hstep
    · rw [ht] at hstep
      cases hstep
      obtain ⟨h1, h2, h3, _⟩ := tryRelease_spec hinv hlast ht
      exact ⟨h1, h2, h3, hin⟩

/-- Chain correctness of a full reorderer run. -/
theorem reorderRun_chainOk {P : ℕ → ℕ} :
    ∀ (fuel : ℕ) (st : ReorderSt) (inputs : List FsBlock) (last : Option BlockExtra),
      BlocksInv P st.blocks → RLastInv P last st → InputsOk P inputs →
      ReorderChainOk last (reorderRun fuel st inputs) := by
  intro fuel
  induction fuel with
  | zero => intro st inputs last _ _ _; trivial
  | succ fuel ih =>
    intro st inputs last hinv hlast hin
    rcases hstep : reorderNext st inputs with ⟨b, st', rest⟩ | _ | _
    · simp only [reorderRun, hstep]
      obtain ⟨h1, h2, h3, h4⟩ := reorderNext_spec inputs st last b st' rest hinv hlast hin hstep
      exact ⟨h1, ih st' rest (some b) h2 h3 h4⟩
    · simp only [reorderRun, hstep]
      trivial
    · simp only [reorderRun, hstep]
      trivial

/-- Adjacent outputs of a chain-correct stream are chained. -/
theorem reorderChainOk_pairs :
    ∀ (outs : List BlockExtra) (last : Option BlockExtra), ReorderChainOk last outs →
      ∀ (i : ℕ) (b1 b2 : BlockExtra), outs[i]? = some b1 → outs[i + 1]? = some b2 →
        b2.height = b1.height + 1 ∧ b2.prevHash = b1.blockHash := by
  intro outs
  induction outs with
  | nil => intro last _ i b1 b2 h1; simp at h1
  | cons b t ih =>
    intro last hok i b1 b2 h1 h2
    cases i with
    | zero =>
      simp only [List.getElem?_cons_zero, Option.some.injEq] at h1
      subst h1
      simp only [List.getElem?_cons_succ] at h2
      cases t with
      | nil => simp at h2
      | cons b3 t3 =>
        simp only [List.getElem?_cons_zero, Option.some.injEq] at h2
        subst h2
        exact hok.2.1 b rfl
    | succ i =>
      simp only [List.getElem?_cons_succ] at h1 h2
      exact ih (some b) hok.2 i b1 b2 h1 h2

/-- When `Reorder::next` releases a block after ingesting any number of
records, the release is a `tryRelease` at a state with the same expected
hash and height (ingesting does not change either). -/
theorem reorderNext_emit_from_tryRelease :
    ∀ (inputs : List FsBlock) (st : ReorderSt) (b : BlockExtra) (st' : ReorderSt)
      (rest : List FsBlock), reorderNext st inputs = .emit b st' rest →
      ∃ stRel : ReorderSt, stRel.next = st.next ∧ stRel.height = st.height ∧
        tryRelease stRel = some (b, st') := by
  intro inputs
  induction inputs with
  | nil =>
    intro st b st' rest hstep
    simp only [reorderNext] at hstep
    rcases ht : tryRelease st with _ | ⟨b2, st2⟩
    · rw [ht] at hstep
      cases hstep
    · rw [ht] at hstep
      cases hstep
      exact ⟨st, rfl, rfl, ht⟩
  | cons r rest0 ih =>
    intro st b st' rest hstep
    simp only [reorderNext] at hstep
    rcases ht : tryRelease st with _ | ⟨b2, st2⟩
    · rw [ht] at hstep
      by_cases hov : 10000 < st.blocks.blocks.entries.length
      · rw [if_pos hov] at hstep
        cases hstep
      · rw [if_neg hov] at hstep
        obtain ⟨stRel, h1, h2, h3⟩ := ih { st with blocks := st.blocks.add r } b st' rest hstep
        exact ⟨stRel, h1, h2, h3⟩
    · rw [ht] at hstep
      cases hstep
      exact ⟨st, rfl, rfl, ht⟩

/-- A successful release takes the DFS's first-found hash as the unique
chosen successor: the released block's `next` is rewritten to exactly that
hash and it becomes the new expected hash. -/
theorem tryRelease_chosen (st : ReorderSt) (b : BlockExtra) (st' : ReorderSt)
    (ht : tryRelease st = some (b, st')) :
    ∃ c, existAndHasFollowers st.blocks st.next [] = some c ∧
      b.next = [c] ∧ st'.next = c := by
  unfold tryRelease at ht
  rcases hrm : OutOfOrderBlocks.remove st.blocks st.next with _ | ⟨v, blocks'⟩
  · rw [hrm] at ht
    cases ht
  · rw [hrm] at ht
    obtain ⟨c, b0, he, hbl, hv, _⟩ := (remove_spec st.blocks st.next).2 v blocks' hrm
    subst hv
    simp only [List.head?_cons] at ht
    cases ht
    exact ⟨c, he, rfl, rfl⟩

/-- C7 (amended). A block that fails to decode after a magic hit is
skipped and scanning continues; a trailing partial block truncated inside
the block payload never makes `detect` return an error — it returns `Ok`
with the records found so far. (As stated the claim fails when the
truncation falls inside the 4-byte size field right after a magic hit,
where the `?` on the size read propagates an error; hence the
`NoTailMagicByte` proviso in the general part.) The two concrete
conjuncts: a good block followed by a truncated partial block yields just
the good record, and a corrupt block followed by a good block yields just
the good record. -/
theorem claim_C7_detect_error_tolerance :
    (∀ (decode : Decoder) (magic : ℕ) (bytes : List ℕ),
        magic < 2 ^ 32 →
        (∀ s, (decode s).1 = none) →
        (∀ b ∈ bytes, b < 256) →
        NoTailMagicByte magic bytes →
        detect decode magic bytes = .ok []) ∧
    detect toyDecoder 0x0709110B
        [0x0B, 0x11, 0x09, 0x07, 2, 0, 0, 0, 10, 11, 0x0B, 0x11, 0x09, 0x07, 2, 0, 0, 0, 12] =
      .ok [⟨8, 10, 100, 0⟩] ∧
    detect toyDecoder 0x0709110B
        [0x0B, 0x11, 0x09, 0x07, 2, 0, 0, 0, 0xFF, 0xFF,
          0x0B, 0x11, 0x09, 0x07, 2, 0, 0, 0, 10, 11] =
      .ok [⟨18, 20, 100, 0⟩] := by
  refine ⟨fun decode magic bytes hm hdec hb ht => ?_, by decide, by decide⟩
  exact detectLoop_ok decode magic hm hdec bytes.length 0 bytes 0 [] (by norm_num) hb ht

/-- C7 counterexample to the claim as stated: a file truncated immediately
after a magic occurrence (mainnet magic bytes `F9 BE B4 D9` and nothing
else) is a file truncated mid-block, yet `detect` returns an error — the
`?` on the size read — not `Ok` with the records found so far. -/
theorem claim_C7_counterexample :
    detect failDecoder 0xD9B4BEF9 [0xF9, 0xBE, 0xB4, 0xD9] = .error .ioError ∧
    ∀ l, (DResult.error .ioError) ≠ .ok l :=
  ⟨by decide, fun l h => DResult.noConfusion h⟩

/-- C7 witness: the general part applied to a concrete all-corrupt file. -/
theorem claim_C7_witness :
    detect failDecoder 0xD9B4BEF9 [1, 2, 3] = .ok [] := by
  apply claim_C7_detect_error_tolerance.1 failDecoder 0xD9B4BEF9 [1, 2, 3]
    (by norm_num) (fun _ => rfl) (by decide)
  intro i b hlen hget
  have hb : b ∈ [1, 2, 3] := List.getElem?_mem hget
  have ht : (0xD9B4BEF9 : ℕ) >>> 24 = 217 := by decide
  rw [ht]
  simp only [List.mem_cons, List.not_mem_nil, or_false] at hb
  rcases hb with h | h | h <;> omega

/-- C9. Pushing bytes `b0, b1, b2, b3` in that order into a fresh rolling
window yields `b0 ||| b1 <<< 8 ||| b2 <<< 16 ||| b3 <<< 24`; in
particular pushing `0x0B, 0x11, 0x09, 0x07` yields the testnet magic
`0x0709110B`. -/
theorem claim_C9_rolling_window :
    (∀ b0 b1 b2 b3 : ℕ, b0 < 256 → b1 < 256 → b2 < 256 → b3 < 256 →
      rollPush (rollPush (rollPush (rollPush 0 b0) b1) b2) b3 =
        ((b0 ||| (b1 <<< 8)) ||| (b2 <<< 16)) ||| (b3 <<< 24)) ∧
    rollPush (rollPush (rollPush (rollPush 0 0x0B) 0x11) 0x09) 0x07 = 0x0709110B := by
  constructor
  · intro b0 b1 b2 b3 h0 h1 h2 h3
    have d8 : ∀ x : ℕ, 2 ^ 8 * x / 2 ^ 8 = x := fun x =>
      Nat.mul_div_cancel_left x (by norm_num)
    have e0 : rollPush 0 b0 = 2 ^ 24 * b0 := by
      rw [rollPush_eq_add (by norm_num)]; norm_num
    have l0 : 2 ^ 24 * b0 < 2 ^ 32 := by norm_num at *; omega
    have e1 : rollPush (2 ^ 24 * b0) b1 = 2 ^ 24 * b1 + 2 ^ 16 * b0 := by
      rw [rollPush_eq_add l0, show (2:ℕ) ^ 24 * b0 = 2 ^ 8 * (2 ^ 16 * b0) by ring, d8]
    have l1 : 2 ^ 24 * b1 + 2 ^ 16 * b0 < 2 ^ 32 := by norm_num at *; omega
    have e2 : rollPush (2 ^ 24 * b1 + 2 ^ 16 * b0) b2 =
        2 ^ 24 * b2 + (2 ^ 16 * b1 + 2 ^ 8 * b0) := by
      rw [rollPush_eq_add l1,
        show (2:ℕ) ^ 24 * b1 + 2 ^ 16 * b0 = 2 ^ 8 * (2 ^ 16 * b1 + 2 ^ 8 * b0) by ring, d8]
    have l2 : 2 ^ 24 * b2 + (2 ^ 16 * b1 + 2 ^ 8 * b0) < 2 ^ 32 := by norm_num at *; omega
    have e3 : rollPush (2 ^ 24 * b2 + (2 ^ 16 * b1 + 2 ^ 8 * b0)) b3 =
        2 ^ 24 * b3 + (2 ^ 16 * b2 + (2 ^ 8 * b1 + b0)) := by
      rw [rollPush_eq_add l2,
        show (2:ℕ) ^ 24 * b2 + (2 ^ 16 * b1 + 2 ^ 8 * b0) =
          2 ^ 8 * (2 ^ 16 * b2 + (2 ^ 8 * b1 + b0)) by ring, d8]
    have r1 : b0 ||| (b1 <<< 8) = 2 ^ 8 * b1 + b0 :=
      lor_shiftLeft_eq_add b1 (by omega)
    have r2 : (2 ^ 8 * b1 + b0) ||| (b2 <<< 16) = 2 ^ 16 * b2 + (2 ^ 8 * b1 + b0) :=
      lor_shiftLeft_eq_add b2 (by norm_num at *; omega)
    have r3 : (2 ^ 16 * b2 + (2 ^ 8 * b1 + b0)) ||| (b3 <<< 24) =
        2 ^ 24 * b3 + (2 ^ 16 * b2 + (2 ^ 8 * b1 + b0)) :=
      lor_shiftLeft_eq_add b3 (by norm_num at *; omega)
    rw [e0, e1, e2, e3, r1, r2, r3]
  · decide

/-- C9 witness: the general formula applied to the concrete testnet bytes. -/
theorem claim_C9_witness :
    rollPush (rollPush (rollPush (rollPush 0 0x0B) 0x11) 0x09) 0x07 =
      ((0x0B ||| (0x11 <<< 8)) ||| (0x09 <<< 16)) ||| (0x07 <<< 24) :=
  claim_C9_rolling_window.1 0x0B 0x11 0x09 0x07
    (by norm_num) (by norm_num) (by norm_num) (by norm_num)

/-! ## Claims C1, C2, C3: ordering and the reorderer -/

/-- C1. In either source's output, consecutive deliveries with no reorg
(and no other delivery) between them ascend by exactly one height and link
by prev-hash: for the fetcher over any channel trace from `Fetcher::new`'s
state, and for the reorderer over any run from `Reorder::new`'s state on
hash-consistent detector records. -/
theorem claim_C1_consecutive_deliveries :
    (∀ (lastBlock : Option (ℕ × ℕ)) (items : List RItem) (i j : ℕ) (b1 b2 : RItem),
      (frun (mkFetchSt lastBlock) items)[i]? = some (.emit b1) →
      (frun (mkFetchSt lastBlock) items)[j]? = some (.emit b2) →
      i < j →
      (∀ k, i < k → k < j → ∀ e, (frun (mkFetchSt lastBlock) items)[k]? = some e →
        NotDelivery e) →
      b2.height = b1.height + 1 ∧ b2.prev = b1.id) ∧
    (∀ (P : ℕ → ℕ) (genesis maxReorg fuel : ℕ) (inputs : List FsBlock) (i : ℕ)
      (b1 b2 : BlockExtra), InputsOk P inputs →
      (reorderRun fuel (initReorderSt genesis maxReorg) inputs)[i]? = some b1 →
      (reorderRun fuel (initReorderSt genesis maxReorg) inputs)[i + 1]? = some b2 →
      b2.height = b1.height + 1 ∧ b2.prevHash = b1.blockHash) := by
  constructor
  · intro lastBlock items i j b1 b2 hi hj hij hbetween
    have hbuf : BufInv (mkFetchSt lastBlock) := by
      intro k' x hk'
      rcases lastBlock with _ | ⟨p, q⟩ <;>
        simp [mkFetchSt, AList.lookup_empty] at hk'
    have hlast : LastInv none (mkFetchSt lastBlock) := fun bl hbl => Option.noConfusion hbl
    obtain ⟨hc, _⟩ := frun_spec items (mkFetchSt lastBlock) none hbuf hlast
    exact chainOk_pairs _ none hc i j b1 b2 hi hj hij hbetween
  · intro P genesis maxReorg fuel inputs i b1 b2 hin hi hi1
    have hinv : BlocksInv P (initReorderSt genesis maxReorg).blocks := by
      constructor
      · intro h b hl
        rw [show (initReorderSt genesis maxReorg).blocks.blocks = ∅ from rfl,
          AList.lookup_empty] at hl
        cases hl
      · intro k l hl
        rw [show (initReorderSt genesis maxReorg).blocks.follows = ∅ from rfl,
          AList.lookup_empty] at hl
        cases hl
    have hlast : RLastInv P none (initReorderSt genesis maxReorg) :=
      fun bl hbl => Option.noConfusion hbl
    have hok := reorderRun_chainOk fuel (initReorderSt genesis maxReorg) inputs none
      hinv hlast hin
    exact reorderChainOk_pairs _ none hok i b1 b2 hi hi1

set_option maxHeartbeats 1000000 in
/-- C1 witness: both parts applied to concrete two-delivery runs. -/
theorem claim_C1_witness :
    ((RItem.mk 1 11 10).height = (RItem.mk 0 10 0).height + 1 ∧
      (RItem.mk 1 11 10).prev = (RItem.mk 0 10 0).id) ∧
    ((BlockExtra.mk 1 2 1 [3]).height = (BlockExtra.mk 0 1 0 [2]).height + 1 ∧
      (BlockExtra.mk 1 2 1 [3]).prevHash = (BlockExtra.mk 0 1 0 [2]).blockHash) := by
  constructor
  · exact claim_C1_consecutive_deliveries.1 none [⟨0, 10, 0⟩, ⟨1, 11, 10⟩] 0 1
      ⟨0, 10, 0⟩ ⟨1, 11, 10⟩ (by decide) (by decide) (by decide)
      (fun k hk1 hk2 e _ => absurd hk2 (by omega))
  · exact claim_C1_consecutive_deliveries.2 (fun h => h - 1) 1 2 2
      [⟨1, 0, []⟩, ⟨2, 1, []⟩, ⟨3, 2, []⟩, ⟨4, 3, []⟩] 0
      ⟨0, 1, 0, [2]⟩ ⟨1, 2, 1, [3]⟩ (by unfold InputsOk; decide) (by decide) (by decide)

/-- C2. The reorderer releases the block at the expected hash iff a
descendant path of length `max_reorg` exists from it in the
`blocks`/`next` DAG — equivalently, a block is released only once
`max_reorg` successors of it (on some branch) have been observed. -/
theorem claim_C2_release_iff_followers :
    ∀ (s : OutOfOrderBlocks) (h : ℕ), 0 < s.maxReorg →
      ((OutOfOrderBlocks.remove s h).isSome ↔ HasPath s.blocks h s.maxReorg) := by
  intro s h hpos
  rw [(remove_spec s h).1]
  have hiff := existGo_isSome_iff s.blocks s.maxReorg
    s.maxReorg h [] (by simp) (fun _ => hpos)
  constructor
  · intro ⟨_, he⟩
    apply hiff.mp
    unfold existAndHasFollowers at he
    simpa using he
  · intro hp
    refine ⟨hpos, ?_⟩
    unfold existAndHasFollowers
    simpa using hiff.mpr hp

set_option maxHeartbeats 1000000 in
/-- C2 witness: with depth 2, a block with a buffered chain of two
successors is releasable. -/
theorem claim_C2_witness :
    (OutOfOrderBlocks.remove
      ⟨AList.insert 2 ⟨2, 1, [3]⟩ (AList.insert 1 ⟨1, 0, [2]⟩ ∅), ∅, 2⟩ 1).isSome := by
  apply (claim_C2_release_iff_followers
    ⟨AList.insert 2 ⟨2, 1, [3]⟩ (AList.insert 1 ⟨1, 0, [2]⟩ ∅), ∅, 2⟩ 1 (by decide)).mpr
  exact ⟨⟨1, 0, [2]⟩, rfl, 2, by decide, ⟨2, 1, [3]⟩, rfl, 3, by decide, trivial⟩

set_option maxHeartbeats 1000000 in
/-- C3 (amended). On release, the depth-bounded DFS
(`exist_and_has_followers`) returns the first hash found at depth
`max_reorg`; that hash becomes the unique chosen successor: the released
block's `next` is rewritten to that single hash, which is the new expected
hash. In the concrete fork scenario (genesis→A→B→C then genesis→A→B'→C'→D'
fed in that order, `max_reorg_depth = 2`, hashes 1,2,3,4 and 5,6,7), A is
released with `next = [B]` — the branch through B is the first found by
the DFS, not B' as the claim stated. -/
theorem claim_C3_dfs_first_choice :
    (∀ (st : ReorderSt) (inputs : List FsBlock) (b : BlockExtra) (st' : ReorderSt)
      (rest : List FsBlock), reorderNext st inputs = .emit b st' rest →
      ∃ (stRel : ReorderSt) (c : ℕ), stRel.next = st.next ∧
        existAndHasFollowers stRel.blocks stRel.next [] = some c ∧
        b.next = [c] ∧ st'.next = c) ∧
    (reorderRun 2 (initReorderSt 1 2)
        [⟨1, 0, []⟩, ⟨2, 1, []⟩, ⟨3, 2, []⟩, ⟨4, 3, []⟩,
          ⟨5, 2, []⟩, ⟨6, 5, []⟩, ⟨7, 6, []⟩])[1]? =
      some ⟨1, 2, 1, [3]⟩ := by
  constructor
  · intro st inputs b st' rest hstep
    obtain ⟨stRel, hnext, _, ht⟩ := reorderNext_emit_from_tryRelease inputs st b st' rest hstep
    obtain ⟨c, hc1, hc2, hc3⟩ := tryRelease_chosen stRel b st' ht
    exact ⟨stRel, c, hnext, hc1, hc2, hc3⟩
  · decide

set_option maxHeartbeats 1000000 in
/-- C3 counterexample to the claim as stated: in the scenario the claim
itself fixes (both branches buffered, depth 2), A is released with
`next = [3]` (the hash of B), not `[5]` (the hash of B'). -/
theorem claim_C3_counterexample :
    (reorderRun 2 (initReorderSt 1 2)
        [⟨1, 0, []⟩, ⟨2, 1, []⟩, ⟨3, 2, []⟩, ⟨4, 3, []⟩,
          ⟨5, 2, []⟩, ⟨6, 5, []⟩, ⟨7, 6, []⟩])[1]?.map BlockExtra.next = some [3] ∧
    some [3] ≠ some ([5] : List ℕ) := by
  exact ⟨by decide, by decide⟩

set_option maxHeartbeats 1000000 in
/-- C3 witness: the general part applied to a concrete release — the DFS
picks hash 2 (A's single child) and the released genesis gets
`next = [2]`. -/
theorem claim_C3_witness :
    ∃ (stRel : ReorderSt) (c : ℕ), stRel.next = (initReorderSt 1 2).next ∧
      existAndHasFollowers stRel.blocks stRel.next [] = some c ∧
      (BlockExtra.mk 0 1 0 [2]).next = [c] := by
  obtain ⟨stRel, c, h1, h2, h3, _⟩ := claim_C3_dfs_first_choice.1 (initReorderSt 1 2)
    [⟨1, 0, []⟩, ⟨2, 1, []⟩, ⟨3, 2, []⟩] (BlockExtra.mk 0 1 0 [2])
    ⟨1, 2, ⟨AList.insert 3 ⟨3, 2, []⟩ (AList.insert 2 ⟨2, 1, [3]⟩ ∅),
      AList.insert 2 [3] (AList.insert 0 [1] ∅), 2⟩⟩
    [] (by rfl)
  exact ⟨stRel, c, h1, h2, h3⟩

/-! ## Claim C8: RPC URL auth selection -/

/-- C8. Parsing yields no-auth exactly when the username is empty and no
password is present; basic auth `(user, password)` exactly when a
non-empty username and a password are both present; every other
combination is a configuration error. -/
theorem claim_C8_auth_selection :
    ∀ (user : String) (pass : Option String),
      (fromUrlAuth user pass = some .noAuth ↔ user = "" ∧ pass = none) ∧
      (∀ u p, fromUrlAuth user pass = some (.userPass u p) ↔
        user ≠ "" ∧ pass = some p ∧ u = user) ∧
      (fromUrlAuth user pass = none ↔
        (user = "" ∧ pass ≠ none) ∨ (user ≠ "" ∧ pass = none)) := by
  intro user pass
  by_cases h : user = ""
  · have hb : (user == "") = true := by simp [h]
    rcases pass with _ | p <;> simp [fromUrlAuth, hb, h]
  · have hb : (user == "") = false := by simp [h]
    rcases pass with _ | p
    all_goals simp [fromUrlAuth, hb, h]
    all_goals tauto

/-! ## Claim C5: worker error back-off -/

/-! ## Claims C4, C6, C10: the fetcher's reorg check -/

/-- C4. The reorg check on an arriving block at `cur_height > 0` reports a
reorg exactly when the stored hash at `cur_height - 1` exists and differs
from the block's prev-hash; a reported reorg resets the fetcher —
`cur_height` drops by exactly one, the out-of-order buffer is discarded,
the window is kept — and the next delivered block after a reorg at height
`h` has height `h - 1`. -/
theorem claim_C4_reorg_detection_and_recovery :
    (∀ (s : FetchSt) (b : RItem),
      (trackReorgs s b).1 = .reorg ↔
        0 < s.cur ∧ ∃ stored, s.ph.lookup (s.cur - 1) = some stored ∧ stored ≠ b.prev) ∧
    (∀ (s : FetchSt) (it : RItem), (trackReorgs s it).1 = .reorg →
      processAt s it = (resetOnReorg s, .reorg s.cur) ∧
      (resetOnReorg s).cur = s.cur - 1 ∧ (resetOnReorg s).buf = ∅ ∧
      (resetOnReorg s).ph = s.ph) ∧
    (∀ (lastBlock : Option (ℕ × ℕ)) (items : List RItem) (k h : ℕ) (b : RItem),
      (frun (mkFetchSt lastBlock) items)[k]? = some (.reorg h) →
      (frun (mkFetchSt lastBlock) items)[k + 1]? = some (.emit b) →
      b.height = h - 1) := by
  refine ⟨trackReorgs_reorg_iff, ?_, ?_⟩
  · intro s it htr
    rcases processAt_inv s it with ⟨_, hacc⟩ | ⟨hpa, _⟩ | ⟨_, _, hne⟩
    · rw [htr] at hacc
      cases hacc
    · exact ⟨hpa, rfl, rfl, rfl⟩
    · exact absurd htr hne
  · intro lastBlock items k h b hk hk1
    have hbuf : BufInv (mkFetchSt lastBlock) := by
      intro k' x hk'
      rcases lastBlock with _ | ⟨p, q⟩ <;>
        simp [mkFetchSt, AList.lookup_empty] at hk'
    have hlast : LastInv none (mkFetchSt lastBlock) := fun bl hbl => Option.noConfusion hbl
    obtain ⟨_, hh⟩ := frun_spec items (mkFetchSt lastBlock) none hbuf hlast
    exact heightOk_reorg_emit _ _ k h b hh hk hk1

/-- C4 witness: a concrete mismatch at height 1 rewinds to height 0, and
in a concrete run the delivery right after the reorg at height 1 has
height 0. -/
theorem claim_C4_witness :
    processAt ⟨1, AList.insert 0 10 ∅, ∅⟩ ⟨1, 99, 55⟩ =
      (resetOnReorg ⟨1, AList.insert 0 10 ∅, ∅⟩, .reorg 1) ∧
    (RItem.mk 0 20 7).height = 1 - 1 :=
  ⟨(claim_C4_reorg_detection_and_recovery.2.1 ⟨1, AList.insert 0 10 ∅, ∅⟩ ⟨1, 99, 55⟩
      (by decide)).1,
    claim_C4_reorg_detection_and_recovery.2.2 none [⟨0, 10, 0⟩, ⟨1, 99, 55⟩, ⟨0, 20, 7⟩]
      1 1 ⟨0, 20, 7⟩ (by decide) (by decide)⟩

/-- C6. On an accepting reorg-check step: once `cur_height` reaches the
window size, the entry 1000 below it is evicted; every accepting check
from a well-shaped window (`WInv`: empty at genesis, otherwise keys a
contiguous height range spanning below 1000 with `cur_height` in
`[lo, hi + 1]`) leaves at most 1000 entries and a well-shaped window for
the advanced height; and the shape holds at every reachable state — it is
established by `Fetcher::new` and preserved by every fetcher step,
including reorg rewinds of any depth (which keep the window while
decrementing `cur_height`, so keys may sit above the cursor until accepts
overwrite them in place). -/
theorem claim_C6_window_bound :
    (∀ (s : FetchSt) (b : RItem), (trackReorgs s b).1 = .accept → windowSize ≤ s.cur →
      (trackReorgs s b).2.lookup (s.cur - windowSize) = none) ∧
    (∀ (s : FetchSt) (b : RItem), b.height = s.cur → (trackReorgs s b).1 = .accept →
      WInv s → (trackReorgs s b).2.entries.length ≤ windowSize ∧ WInv (acceptSt s b)) ∧
    (∀ lastBlock : Option (ℕ × ℕ), WInv (mkFetchSt lastBlock)) ∧
    (∀ (s : FetchSt) (item : RItem), BufInv s → WInv s →
      BufInv (fstep s item).1 ∧ WInv (fstep s item).1) := by
  refine ⟨?_, fun s b hbh hacc hw => winv_accept hbh hacc hw, winv_init, winv_fstep⟩
  intro s b hacc hwdw
  rw [trackReorgs_accept_window s b hacc, if_pos hwdw, AList.lookup_erase]

/-- C6 witness: from the well-shaped single-entry window at height 999,
accepting block 1000 evicts the entry at height 0 and the window stays
within the bound. -/
theorem claim_C6_witness :
    ((trackReorgs ⟨1000, AList.insert 999 5 ∅, ∅⟩ ⟨1000, 7, 5⟩).2.lookup (1000 - windowSize) =
      none) ∧
    (trackReorgs ⟨1000, AList.insert 999 5 ∅, ∅⟩ ⟨1000, 7, 5⟩).2.entries.length ≤
      windowSize := by
  have hm : ∀ k : ℕ, k ∈ (∅ : AList (fun _ : ℕ => ℕ)).insert 999 5 ↔ 999 ≤ k ∧ k ≤ 999 := by
    intro k
    rw [AList.mem_insert]
    constructor
    · rintro (rfl | hk)
      · omega
      · exact absurd hk (AList.not_mem_empty k)
    · intro hk
      left
      omega
  have hw : WInv ⟨1000, AList.insert 999 5 ∅, ∅⟩ :=
    Or.inr ⟨999, 999, by decide, by decide, by decide, hm⟩
  exact ⟨claim_C6_window_bound.1 ⟨1000, AList.insert 999 5 ∅, ∅⟩ ⟨1000, 7, 5⟩ (by decide)
      (by decide),
    (claim_C6_window_bound.2.1 ⟨1000, AList.insert 999 5 ∅, ∅⟩ ⟨1000, 7, 5⟩ (by decide)
      (by decide) hw).1⟩

/-- C10. A reorg-reporting call of the reorg check leaves the prev-hash
window unchanged — in fact any non-accepting call does; the insert (and
conditional eviction) happens exactly on accept. -/
theorem claim_C10_reorg_leaves_window :
    ∀ (s : FetchSt) (b : RItem),
      ((trackReorgs s b).1 = .reorg → (trackReorgs s b).2 = s.ph) ∧
      ((trackReorgs s b).1 ≠ .accept → (trackReorgs s b).2 = s.ph) ∧
      ((trackReorgs s b).1 = .accept →
        (trackReorgs s b).2 = (if windowSize ≤ s.cur
          then (s.ph.insert b.height b.id).erase (s.cur - windowSize)
          else s.ph.insert b.height b.id)) := by
  intro s b
  refine ⟨fun h => trackReorgs_nonaccept_window s b (by rw [h]; intro hc; cases hc),
    trackReorgs_nonaccept_window s b, trackReorgs_accept_window s b⟩

/-- C10 witness: at a concrete reorg the window is returned untouched. -/
theorem claim_C10_witness :
    (trackReorgs ⟨1, AList.insert 0 10 ∅, ∅⟩ ⟨1, 99, 55⟩).2 =
      (FetchSt.mk 1 (AList.insert 0 10 ∅) ∅).ph :=
  (claim_C10_reorg_leaves_window ⟨1, AList.insert 0 10 ∅, ∅⟩ ⟨1, 99, 55⟩).1 (by decide)

/-- C5. The claim says the sleep is `delay * (1 + (h - min))` milliseconds
and never zero; the code computes `(1 + delay) * (h - min)`, which is `0`
whenever the worker holds the minimum in-flight height (`h = min`) — and
since each worker is given its own `in_progress` set containing only its
own height, that is always the case. At `delay = 100, h = min = 5` the
code sleeps 0 ms where the claim requires 100 ms. -/
theorem claim_C5_backoff_bug :
    (∀ delay h : ℕ, workerErrorSleepMs delay h h = 0) ∧
    workerErrorSleepMs 100 5 5 = 0 ∧
    (100 * (1 + (5 - 5)) : ℕ) = 100 ∧
    workerErrorSleepMs 100 5 5 ≠ 100 * (1 + (5 - 5)) := by
  refine ⟨fun delay h => ?_, by decide, by decide, by decide⟩
  simp [workerErrorSleepMs]

end BlockIter
